import Mathlib

/-!
# Verification of the discrete Remez exchange algorithms

Shallow embedding of the polynomial minimax approximation routines of the
repository (files `first_algorithm.py`, `minmax.py`, `remes_first_algorithm.py`,
`second_algorithm.py`, `remes_second_algorithm.py`) over exact rational
arithmetic, together with proofs and refutations of the specified properties.

Numeric model: the Python code computes with IEEE doubles; the embedding uses
`ℚ` as the exact-arithmetic model of the same formulas.  `np.linalg.solve` is
modelled by exact Gaussian elimination with row pivoting (`gaussSolve`), which
is proved sound (`gaussSolve_sound`): any solution it returns satisfies the
linear system.  The trial-point initializers of the Python code evaluate the
transcendental `cos`, so the starting trial points are taken as an explicit
argument `u0` of the embedded drivers; concrete instances below supply the
values the Python initializers produce.
-/

/-- Dot product of two rational lists (missing entries count as 0). -/
def dotQ : List ℚ → List ℚ → ℚ
  | a :: as, b :: bs => a * b + dotQ as bs
  | _, _ => 0

/-- One row of a linear system: the coefficients and the right-hand side. -/
abbrev LinRow := List ℚ × ℚ

/-- Eliminate the leading column of a row using the pivot row
`(a :: ps, yp)` (with pivot entry `a`), as in Gaussian elimination. -/
def elimRow (a : ℚ) (ps : List ℚ) (yp : ℚ) : LinRow → LinRow
  | (c :: rs, y) => (List.zipWith (fun s t => s - c / a * t) rs ps, y - c / a * yp)
  | ([], y) => ([], y)

/-- Find the first row whose leading coefficient is nonzero; return its parts
and the remaining rows (in order). -/
def findPivot : List LinRow → Option ((ℚ × List ℚ × ℚ) × List LinRow)
  | [] => none
  | ([], _) :: _ => none
  | (a :: ps, y) :: rest =>
    if a = 0 then
      match findPivot rest with
      | none => none
      | some (piv, others) => some (piv, (a :: ps, y) :: others)
    else
      some ((a, ps, y), rest)

/-- Exact Gaussian elimination, the model of `np.linalg.solve`: solve a linear
system of `n` unknowns given as a list of rows; `none` models the
`LinAlgError` raised on a singular system. -/
def gaussSolve : ℕ → List LinRow → Option (List ℚ)
  | 0, sys => if sys.all (fun row => decide (row.2 = 0)) then some [] else none
  | n + 1, sys =>
    (findPivot sys).bind fun piv =>
      (gaussSolve n (piv.2.map (elimRow piv.1.1 piv.1.2.1 piv.1.2.2))).map
        (fun xs => (piv.1.2.2 - dotQ piv.1.2.1 xs) / piv.1.1 :: xs)

/-- `np.linspace start stop num`: `num` equally spaced points from `start` to
`stop` inclusive. -/
def linspace (start stop : ℚ) (num : ℕ) : List ℚ :=
  (List.range num).map (fun (i : ℕ) => start + (stop - start) * (i : ℚ) / ((num : ℚ) - 1))

/-- `np.polynomial.polynomial.polyval`: evaluate a polynomial given by its
coefficients in ascending-power order. -/
def polyval (p : List ℚ) (g : ℚ) : ℚ :=
  match p with
  | [] => 0
  | c :: cs => c + g * polyval cs g

/-- The row `[g^0, g^1, ..., g^(n-1)]` of `np.vander(·, n, increasing=True)`. -/
def powList (g : ℚ) (n : ℕ) : List ℚ :=
  (List.range n).map (fun k => g ^ k)

/-- The linear system solved in every iteration: row `i` is the ascending
Vandermonde row at grid point `u i` with the alternating-sign entry `(-1)^i`
appended, and right-hand side `f (u i)`; this is
`np.insert(np.vander(grid[u], n_deg+1, True), n_deg+1, alt, 1)` with `f[u]`. -/
def buildSystem (grid f : List ℚ) (u : List ℕ) (d : ℕ) : List LinRow :=
  (List.range (d + 2)).map (fun i =>
    (powList (grid.getD (u.getD i 0) 0) (d + 1) ++ [((-1 : ℚ)) ^ i],
      f.getD (u.getD i 0) 0))

/-- Solve the iteration's linear system (`np.linalg.solve(a, f[u])`). -/
def remezStepSolve (grid f : List ℚ) (d : ℕ) (u : List ℕ) : Option (List ℚ) :=
  gaussSolve (d + 2) (buildSystem grid f u d)

/-- The signed residual `f - polyval(grid, p)` over the whole grid. -/
def residualGrid (grid f : List ℚ) (p : List ℚ) : List ℚ :=
  List.zipWith (fun fv g => fv - polyval p g) f grid

/-- `np.argmax`: index of the first occurrence of the maximum.  Auxiliary
fold carrying (remaining list, current index, best index, best value). -/
def argmaxAux : List ℚ → ℕ → ℕ → ℚ → ℕ
  | [], _, bi, _ => bi
  | v :: rest, i, bi, bv =>
    if bv < v then argmaxAux rest (i + 1) i v else argmaxAux rest (i + 1) bi bv

/-- `np.argmax` on a rational list (0 on the empty list, which numpy rejects). -/
def argmaxList : List ℚ → ℕ
  | [] => 0
  | v :: rest => argmaxAux rest 1 0 v

/-- `np.argmin`: index of the first occurrence of the minimum. -/
def argminAux : List ℚ → ℕ → ℕ → ℚ → ℕ
  | [], _, bi, _ => bi
  | v :: rest, i, bi, bv =>
    if v < bv then argminAux rest (i + 1) i v else argminAux rest (i + 1) bi bv

/-- `np.argmin` on a rational list (0 on the empty list, which numpy rejects). -/
def argminList : List ℚ → ℕ
  | [] => 0
  | v :: rest => argminAux rest 1 0 v

/-- The Python slice `r[lo:hi]`. -/
def sliceQ (r : List ℚ) (lo hi : ℕ) : List ℚ :=
  (r.drop lo).take (hi - lo)

/-- `np.amax` of a nonempty list. -/
def amaxQ (l : List ℚ) : ℚ :=
  l.foldl max (l.headD 0)

/-- `match_sign` / `is_same_sign` of the Python sources: a value is treated as
non-negative when `0 ≤ ·`, and two values match when both are negative or
both are non-negative. -/
def matchSign (a b : ℚ) : Bool :=
  (decide (a < 0) && decide (b < 0)) || (decide (0 ≤ a) && decide (0 ≤ b))

/-- `np.roll(u, 1)`: rotate right by one. -/
def rollRight (l : List ℕ) : List ℕ :=
  match l with
  | [] => []
  | _ :: _ => l.getLastD 0 :: l.dropLast

/-- `np.roll(u, -1)`: rotate left by one. -/
def rollLeft (l : List ℕ) : List ℕ :=
  match l with
  | [] => []
  | a :: rest => rest ++ [a]

/-- `u[-1] = x` on a nonempty list. -/
def setLast (l : List ℕ) (x : ℕ) : List ℕ :=
  match l with
  | [] => []
  | _ :: _ => l.dropLast ++ [x]

/-- The interior branch of the single-point exchange: scan for the first pair
of consecutive trial points with `u i ≤ pos ≤ u (i+1)` and replace the one
whose residual sign matches (`u i`) or does not match (`u (i+1)`), then stop
(the `for`/`break` loop of `first_algorithm.remez_poly`). -/
def interiorUpdate (r : List ℚ) (pos : ℕ) : List ℕ → List ℕ
  | a :: b :: rest =>
    if a ≤ pos ∧ pos ≤ b then
      if matchSign (r.getD a 0) (r.getD pos 0) then pos :: b :: rest
      else a :: pos :: rest
    else a :: interiorUpdate r pos (b :: rest)
  | l => l

/-- The single-point exchange of the first Remez algorithm
(`first_algorithm.py` lines 146-163, identically `minmax.py` lines 135-153 and
`remes_first_algorithm.py` lines 119-136): insert the position `pos` of the
extreme residual into the trial set. -/
def exchangeSingle (r : List ℚ) (u : List ℕ) (pos : ℕ) : List ℕ :=
  if pos < u.headD 0 then
    (if matchSign (r.getD (u.headD 0) 0) (r.getD pos 0) then u else rollRight u).set 0 pos
  else if u.getLastD 0 < pos then
    setLast (if matchSign (r.getD pos 0) (r.getD (u.getLastD 0) 0) then u else rollLeft u) pos
  else
    interiorUpdate r pos u

/-- `exchange` of `remes_second_algorithm.py` (and the inline equivalent of
`second_algorithm.py`): the position in `[lo, hi)` of the residual extremum
matching the sign of the residual at the current trial point `mi`. -/
def exchangeSeg (r : List ℚ) (lo mi hi : ℕ) : ℕ :=
  lo + (if r.getD mi 0 < 0 then argminList (sliceQ r lo hi) else argmaxList (sliceQ r lo hi))

/-- The multi-point update of all trial points after the first: each point
`mi` is replaced by the extremum of its own residual sign searched from one
past `max(previous update, previous trial point)` up to (exclusive) the next
trial point, the last one up to the grid size `num`. -/
def multiMain (r : List ℚ) (num : ℕ) (prevU prevUpd : ℕ) : List ℕ → List ℕ
  | [mi] => [exchangeSeg r (max prevUpd prevU + 1) mi num]
  | mi :: hi :: rest =>
    let x := exchangeSeg r (max prevUpd prevU + 1) mi hi
    x :: multiMain r num mi x (hi :: rest)
  | [] => []

/-- The multi-point replacement pass of the second Remez algorithm
(`second_algorithm.py` lines 168-186, `remes_second_algorithm.py` lines
138-147): the leftmost point searches `[0, u 1)`, later points as in
`multiMain`. -/
def multiPoints (r : List ℚ) (num : ℕ) (u : List ℕ) : List ℕ :=
  match u with
  | u0 :: u1 :: rest =>
    let x := exchangeSeg r 0 u0 u1
    x :: multiMain r num u0 x (u1 :: rest)
  | _ => u

/-- The multi-point replacement pass exactly as the specification words it:
the leftmost point searches `[0, trial 1)`, each interior point `i` searches
`(trial (i-1), trial (i+1))` (starting one past the previous trial point),
and the rightmost point searches `(trial n_deg, num)`.  Written from the
spec sentence, for comparison with `multiPoints`, the pass the code
performs. -/
def specMultiPoints (r : List ℚ) (num : ℕ) (u : List ℕ) : List ℕ :=
  (List.range u.length).map (fun i =>
    if i = 0 then exchangeSeg r 0 (u.getD 0 0) (u.getD 1 0)
    else if i = u.length - 1 then
      exchangeSeg r (u.getD (i - 1) 0 + 1) (u.getD i 0) num
    else exchangeSeg r (u.getD (i - 1) 0 + 1) (u.getD i 0) (u.getD (i + 1) 0))

/-- The left out-of-band probe of the second algorithm
(`second_algorithm.py` lines 188-196, `remes_second_algorithm.py` lines
149-157): look for an opposite-sign residual extremum left of the first test
point; returns its position and magnitude (magnitude `0` when none
qualifies). -/
def probeLeft (r : List ℚ) (u upd : List ℕ) : ℕ × ℚ :=
  let firstPos0 := min (upd.headD 0) (u.headD 0)
  if 0 < firstPos0 then
    let pf := argmaxList ((sliceQ r 0 firstPos0).map (fun v => |v|))
    if matchSign (r.getD pf 0) (r.getD (upd.headD 0) 0) then (pf, 0)
    else if |r.getD (upd.getLastD 0) 0| < |r.getD pf 0| then (pf, |r.getD pf 0|)
    else (pf, 0)
  else (firstPos0, 0)

/-- The right out-of-band probe (`second_algorithm.py` lines 197-206,
`remes_second_algorithm.py` lines 158-169); `firstMag` is the magnitude found
by the left probe (`0` when none qualified). -/
def probeRight (r : List ℚ) (num : ℕ) (u upd : List ℕ) (firstMag : ℚ) : ℕ × ℚ :=
  let lastPos0 := max (upd.getLastD 0) (u.getLastD 0) + 1
  if lastPos0 < num then
    let pl := lastPos0 + argmaxList ((sliceQ r lastPos0 num).map (fun v => |v|))
    if matchSign (r.getD pl 0) (r.getD (upd.getLastD 0) 0) then (pl, 0)
    else if (firstMag = 0 ∧ |r.getD (upd.headD 0) 0| < |r.getD pl 0|) ∨
        (firstMag < |r.getD pl 0| ∧ 0 < firstMag) then (pl, |r.getD pl 0|)
    else (pl, 0)
  else (lastPos0, 0)

/-- Apply the end-point migration of the second algorithm
(`second_algorithm.py` lines 207-213, `remes_second_algorithm.py` lines
170-178): when a probe qualifies, shift the whole updated trial window by one
towards it (the right probe wins when both qualify). -/
def probeAdjust (r : List ℚ) (num : ℕ) (u upd : List ℕ) : List ℕ :=
  let firstProbe := probeLeft r u upd
  let lastProbe := probeRight r num u upd firstProbe.2
  if 0 < lastProbe.2 then setLast (rollLeft upd) lastProbe.1
  else if 0 < firstProbe.2 then (rollRight upd).set 0 firstProbe.1
  else upd

/-- The complete multi-point exchange step of the second Remez algorithm:
replacement pass followed by the end-point migration probes. -/
def multiExchange (r : List ℚ) (num : ℕ) (u : List ℕ) : List ℕ :=
  probeAdjust r num u (multiPoints r num u)

/-- Result of a `remez_poly` call: a normal return `(coefficients, error,
iterations)`, the `RuntimeWarning('Failed to converge!')`, or the linear-solve
failure. -/
inductive RemezResult where
  | success (coeffs : List ℚ) (err : ℚ) (iters : ℕ)
  | nonConvergence
  | solveFailure
  deriving DecidableEq, Repr

/-- The iteration count of a normal return, if any. -/
def resultIters : RemezResult → Option ℕ
  | .success _ _ i => some i
  | _ => none

/-- The returned error of a normal return, if any. -/
def resultError : RemezResult → Option ℚ
  | .success _ e _ => some e
  | _ => none

/-- The iteration loop of `first_algorithm.remez_poly` (lines 127-165) and of
`remes_first_algorithm.remez_poly` (lines 102-137), which differ only in the
tolerance factor `scale`: solve at the trial points, return the current
coefficients and level-error magnitude once `eiter < scale * error`, else do
the single-point exchange at the global extreme residual.  `fuel` is the
number of remaining iterations, `k` the number already performed. -/
def remezLoopFirst (scale : ℚ) (grid f : List ℚ) (d : ℕ) :
    ℕ → ℕ → ℚ → List ℕ → RemezResult
  | 0, _, _, _ => .nonConvergence
  | fuel + 1, k, err, u =>
    match remezStepSolve grid f d u with
    | none => .solveFailure
    | some x =>
      let p := x.take (d + 1)
      let eiter := |x.getLastD 0|
      if eiter < scale * err then .success p eiter (k + 1)
      else
        let r := residualGrid grid f p
        let pos := argmaxList (r.map (fun v => |v|))
        remezLoopFirst scale grid f d fuel (k + 1) eiter (exchangeSingle r u pos)

/-- The iteration loop of `minmax.remez_poly1` (lines 117-155): as the first
algorithm, but the convergence test is `e_it <= scale * e` (non-strict) and
the residual is computed before the test (which does not change the returned
values). -/
def remezLoopMinmax (scale : ℚ) (grid f : List ℚ) (d : ℕ) :
    ℕ → ℕ → ℚ → List ℕ → RemezResult
  | 0, _, _, _ => .nonConvergence
  | fuel + 1, k, err, u =>
    match remezStepSolve grid f d u with
    | none => .solveFailure
    | some x =>
      let p := x.take (d + 1)
      let eiter := |x.getLastD 0|
      let r := residualGrid grid f p
      let pos := argmaxList (r.map (fun v => |v|))
      if eiter ≤ scale * err then .success p eiter (k + 1)
      else
        remezLoopMinmax scale grid f d fuel (k + 1) eiter (exchangeSingle r u pos)

/-- The iteration loop of `second_algorithm.remez_poly` (lines 127-217):
on a zero level error fall back to the single-point exchange, otherwise do
the multi-point exchange; a converged iteration returns the level-error
magnitude `eiter` as the error. -/
def remezLoopSecond (scale : ℚ) (grid f : List ℚ) (num d : ℕ) :
    ℕ → ℕ → ℚ → List ℕ → RemezResult
  | 0, _, _, _ => .nonConvergence
  | fuel + 1, k, err, u =>
    match remezStepSolve grid f d u with
    | none => .solveFailure
    | some x =>
      let p := x.take (d + 1)
      let eiter := |x.getLastD 0|
      if eiter < scale * err then .success p eiter (k + 1)
      else
        let r := residualGrid grid f p
        let next :=
          if eiter = 0 then exchangeSingle r u (argmaxList (r.map (fun v => |v|)))
          else multiExchange r num u
        remezLoopSecond scale grid f num d fuel (k + 1) eiter next

/-- The iteration loop of `remes_second_algorithm.remez_poly` (lines
120-181): the residual is computed before the convergence test and a
converged iteration returns `np.amax(np.fabs(r_grid))`, the maximum absolute
residual over the whole grid, as the error; the exchange is always the
multi-point exchange. -/
def remezLoopRemesSecond (scale : ℚ) (grid f : List ℚ) (num d : ℕ) :
    ℕ → ℕ → ℚ → List ℕ → RemezResult
  | 0, _, _, _ => .nonConvergence
  | fuel + 1, k, err, u =>
    match remezStepSolve grid f d u with
    | none => .solveFailure
    | some x =>
      let p := x.take (d + 1)
      let eiter := |x.getLastD 0|
      let r := residualGrid grid f p
      if eiter < scale * err then .success p (amaxQ (r.map (fun v => |v|))) (k + 1)
      else
        remezLoopRemesSecond scale grid f num d fuel (k + 1) eiter (multiExchange r num u)

/-- The tolerance factor `1.000000000000001` of `first_algorithm.py` and
`second_algorithm.py`, modelled as the exact decimal. -/
def scaleFirst : ℚ := 1 + 1 / 10 ^ 15

/-- The tolerance factor `1.0000000001` of `minmax.py`. -/
def scaleMinmax : ℚ := 1 + 1 / 10 ^ 10

/-- The tolerance factor `1.0 + 10.0 * np.spacing(1.0)` of
`remes_first_algorithm.py` (`np.spacing(1.0) = 2^-52`). -/
def scaleRemesFirst : ℚ := 1 + 10 / 2 ^ 52

/-- The tolerance factor `1.0 + 4.55 * np.spacing(1.0)` of
`remes_second_algorithm.py`. -/
def scaleRemesSecond : ℚ := 1 + (455 / 100) / 2 ^ 52

/-- `first_algorithm.remez_poly` with the starting trial points passed
explicitly (the Python initializer evaluates the transcendental `cos`). -/
def remezPolyFirst (fq : ℚ → ℚ) (start stop : ℚ) (num d maxIter : ℕ)
    (u0 : List ℕ) : RemezResult :=
  let grid := linspace start stop num
  remezLoopFirst scaleFirst grid (grid.map fq) d maxIter 0 0 u0

/-- `remes_first_algorithm.remez_poly` with explicit starting trial points. -/
def remezPolyRemesFirst (fq : ℚ → ℚ) (start stop : ℚ) (num d maxIter : ℕ)
    (u0 : List ℕ) : RemezResult :=
  let grid := linspace start stop num
  remezLoopFirst scaleRemesFirst grid (grid.map fq) d maxIter 0 0 u0

/-- `minmax.remez_poly1` with explicit starting trial points. -/
def remezPolyMinmax (fq : ℚ → ℚ) (start stop : ℚ) (num d maxIter : ℕ)
    (u0 : List ℕ) : RemezResult :=
  let grid := linspace start stop num
  remezLoopMinmax scaleMinmax grid (grid.map fq) d maxIter 0 0 u0

/-- `second_algorithm.remez_poly` with explicit starting trial points. -/
def remezPolySecond (fq : ℚ → ℚ) (start stop : ℚ) (num d maxIter : ℕ)
    (u0 : List ℕ) : RemezResult :=
  let grid := linspace start stop num
  remezLoopSecond scaleFirst grid (grid.map fq) num d maxIter 0 0 u0

/-- `remes_second_algorithm.remez_poly` with explicit starting trial points. -/
def remezPolyRemesSecond (fq : ℚ → ℚ) (start stop : ℚ) (num d maxIter : ℕ)
    (u0 : List ℕ) : RemezResult :=
  let grid := linspace start stop num
  remezLoopRemesSecond scaleRemesSecond grid (grid.map fq) num d maxIter 0 0 u0

/-- A grid function (total on ℚ, as a Python lambda would be) whose values on
the 5-point grid of `[0, 1]` make the second iteration's level error fall
just inside the tolerance window of the convergence test while a residual of
magnitude greater than `11/2` remains elsewhere on the grid. -/
def c3fun (x : ℚ) : ℚ :=
  if x = 0 then 1
  else if x = 1 / 4 then -5
  else if x = 1 / 2 then 1 + 1 / 10 ^ 16
  else if x = 3 / 4 then 1 / 2
  else 0

/-! ## Soundness of the linear solver -/

lemma dotQ_nil_right (l : List ℚ) : dotQ l [] = 0 := by
  cases l <;> rfl

lemma dotQ_zip_sub (k : ℚ) : ∀ (rs ps xs : List ℚ), rs.length = ps.length →
    dotQ (List.zipWith (fun s t => s - k * t) rs ps) xs =
      dotQ rs xs - k * dotQ ps xs := by
  intro rs
  induction rs with
  | nil =>
    intro ps xs h
    have : ps = [] := by
      cases ps with
      | nil => rfl
      | cons b bs => simp at h
    subst this
    simp [dotQ]
  | cons a rs ih =>
    intro ps xs h
    cases ps with
    | nil => simp at h
    | cons b bs =>
      cases xs with
      | nil => simp [dotQ_nil_right]
      | cons x xs =>
        have hlen : rs.length = bs.length := by simpa using h
        simp only [List.zipWith_cons_cons, dotQ]
        rw [ih bs xs hlen]
        ring

lemma findPivot_spec : ∀ (sys : List LinRow) (a : ℚ) (ps : List ℚ) (y : ℚ)
    (rest : List LinRow), findPivot sys = some ((a, ps, y), rest) →
    a ≠ 0 ∧ (a :: ps, y) ∈ sys ∧
      (∀ r ∈ rest, r ∈ sys) ∧
      (∀ r ∈ sys, r = (a :: ps, y) ∨ r ∈ rest) := by
  intro sys
  induction sys with
  | nil => intro a ps y rest h; simp [findPivot] at h
  | cons row sys ih =>
    intro a ps y rest h
    obtain ⟨coeffs, rhs⟩ := row
    cases coeffs with
    | nil => simp [findPivot] at h
    | cons c cs =>
      by_cases hc : c = 0
      · rw [findPivot, if_pos hc] at h
        cases hfp : findPivot sys with
        | none => rw [hfp] at h; exact absurd h (by simp)
        | some pr =>
          obtain ⟨⟨a', ps', y'⟩, others⟩ := pr
          rw [hfp] at h
          simp only [Option.some.injEq, Prod.mk.injEq] at h
          obtain ⟨⟨ha, hps, hy⟩, hrest⟩ := h
          obtain ⟨h1, h2, h3, h4⟩ := ih a' ps' y' others hfp
          subst ha; subst hps; subst hy
          refine ⟨h1, List.mem_cons_of_mem _ h2, ?_, ?_⟩
          · intro r hr
            rw [← hrest] at hr
            rcases List.mem_cons.mp hr with h | h
            · exact h ▸ List.mem_cons_self _ _
            · exact List.mem_cons_of_mem _ (h3 r h)
          · intro r hr
            rcases List.mem_cons.mp hr with h | h
            · right; rw [← hrest]; exact h ▸ List.mem_cons_self _ _
            · rcases h4 r h with h' | h'
              · exact Or.inl h'
              · right; rw [← hrest]; exact List.mem_cons_of_mem _ h'
      · rw [findPivot, if_neg hc] at h
        simp only [Option.some.injEq, Prod.mk.injEq] at h
        obtain ⟨⟨ha, hps, hy⟩, hrest⟩ := h
        subst ha; subst hps; subst hy; subst hrest
        refine ⟨hc, List.mem_cons_self _ _, fun r hr => List.mem_cons_of_mem _ hr, ?_⟩
        intro r hr
        rcases List.mem_cons.mp hr with h | h
        · exact Or.inl h
        · exact Or.inr h

/-- Soundness of the Gaussian-elimination solver: a returned solution has the
right length and satisfies every row of the system. -/
theorem gaussSolve_sound : ∀ (n : ℕ) (sys : List LinRow) (x : List ℚ),
    (∀ row ∈ sys, row.1.length = n) → gaussSolve n sys = some x →
    x.length = n ∧ ∀ row ∈ sys, dotQ row.1 x = row.2 := by
  intro n
  induction n with
  | zero =>
    intro sys x hwf h
    rw [gaussSolve] at h
    by_cases hall : sys.all (fun row => decide (row.2 = 0))
    · rw [if_pos hall] at h
      obtain rfl : ([] : List ℚ) = x := by simpa using h
      refine ⟨rfl, fun row hrow => ?_⟩
      have h1 : row.1 = [] := List.length_eq_zero.mp (hwf row hrow)
      have h2 : row.2 = 0 := by
        have := List.all_eq_true.mp hall row hrow
        simpa using this
      rw [h1, h2]; rfl
    · rw [if_neg hall] at h; exact absurd h (by simp)
  | succ n ih =>
    intro sys x hwf h
    rw [gaussSolve] at h
    cases hfp : findPivot sys with
    | none => rw [hfp] at h; exact absurd h (by simp)
    | some pr =>
      obtain ⟨⟨a, ps, y⟩, rest⟩ := pr
      rw [hfp] at h
      simp only [Option.some_bind] at h
      obtain ⟨hane, hpmem, hsub, htri⟩ := findPivot_spec sys a ps y rest hfp
      have hps : ps.length = n := by
        have := hwf _ hpmem
        simpa using this
      cases hrec : gaussSolve n (rest.map (elimRow a ps y)) with
      | none => rw [hrec] at h; exact absurd h (by simp)
      | some xs =>
        rw [hrec] at h
        obtain rfl : (y - dotQ ps xs) / a :: xs = x := by simpa using h
        have hwf' : ∀ row ∈ rest.map (elimRow a ps y), row.1.length = n := by
          intro row hrow
          obtain ⟨r0, hr0, rfl⟩ := List.mem_map.mp hrow
          have hlen : r0.1.length = n + 1 := hwf r0 (hsub r0 hr0)
          obtain ⟨coeffs, rhs⟩ := r0
          cases coeffs with
          | nil => simp at hlen
          | cons c rs =>
            have : rs.length = n := by simpa using hlen
            simp [elimRow, this, hps]
        obtain ⟨hxs, hsat⟩ := ih (rest.map (elimRow a ps y)) xs hwf' hrec
        have hx0 : a * ((y - dotQ ps xs) / a) = y - dotQ ps xs :=
          mul_div_cancel₀ _ hane
        refine ⟨by simp [hxs], fun row hrow => ?_⟩
        rcases htri row hrow with rfl | hmem
        · show dotQ (a :: ps) _ = y
          rw [dotQ, hx0]; ring
        · have hlen : row.1.length = n + 1 := hwf row (hsub row hmem)
          obtain ⟨coeffs, rhs⟩ := row
          cases coeffs with
          | nil => simp at hlen
          | cons c rs =>
            have hrs : rs.length = n := by simpa using hlen
            have helim := hsat _ (List.mem_map_of_mem (elimRow a ps y) hmem)
            simp only [elimRow] at helim
            rw [dotQ_zip_sub (c / a) rs ps xs (hrs.trans hps.symm)] at helim
            show dotQ (c :: rs) _ = rhs
            rw [dotQ]
            have hca : c * ((y - dotQ ps xs) / a) = c / a * y - c / a * dotQ ps xs := by
              field_simp
              ring
            rw [hca]
            linarith [helim]

/-! ## The solved system forces the alternating residual at the trial points -/

lemma powList_length (g : ℚ) (n : ℕ) : (powList g n).length = n := by
  simp [powList]

lemma powList_succ (g : ℚ) (n : ℕ) :
    powList g (n + 1) = 1 :: (powList g n).map (fun v => v * g) := by
  rw [powList, List.range_succ_eq_map]
  simp only [List.map_cons, pow_zero, List.map_map, powList]
  congr 1
  apply List.map_congr_left
  intro k _
  simp [pow_succ]

lemma dotQ_map_mul (g : ℚ) : ∀ (l v : List ℚ),
    dotQ (l.map (fun t => t * g)) v = g * dotQ l v := by
  intro l
  induction l with
  | nil => intro v; simp [dotQ]
  | cons a l ih =>
    intro v
    cases v with
    | nil => simp [dotQ_nil_right]
    | cons x xs => simp only [List.map_cons, dotQ, ih]; ring

lemma dotQ_powList (g : ℚ) : ∀ (n : ℕ) (q : List ℚ),
    dotQ (powList g n) q = polyval (q.take n) g := by
  intro n
  induction n with
  | zero => intro q; simp [powList, dotQ, polyval]
  | succ n ih =>
    intro q
    cases q with
    | nil =>
      rw [dotQ_nil_right]
      simp [polyval]
    | cons c cs =>
      rw [powList_succ]
      simp only [dotQ, List.take_succ_cons, polyval, dotQ_map_mul, ih]
      ring

lemma dotQ_append : ∀ (l1 l2 v : List ℚ),
    dotQ (l1 ++ l2) v = dotQ l1 (v.take l1.length) + dotQ l2 (v.drop l1.length) := by
  intro l1
  induction l1 with
  | nil => intro l2 v; simp [dotQ]
  | cons a l1 ih =>
    intro l2 v
    cases v with
    | nil => simp [dotQ_nil_right, dotQ]
    | cons x xs =>
      simp only [List.cons_append, dotQ, List.length_cons, List.take_succ_cons,
        List.drop_succ_cons, List.append_eq]
      rw [ih l2 xs]
      ring

lemma drop_length_pred : ∀ (x : List ℚ) (n : ℕ), x.length = n + 1 →
    x.drop n = [x.getLastD 0] := by
  intro x
  induction x with
  | nil => intro n h; simp at h
  | cons a l ih =>
    intro n h
    cases l with
    | nil =>
      have : n = 0 := by simpa using h
      subst this
      rfl
    | cons b m =>
      cases n with
      | zero => simp at h
      | succ n =>
        have hlen : (b :: m).length = n + 1 := by simpa using h
        rw [List.drop_succ_cons, ih n hlen]
        rfl

lemma buildSystem_wf (grid f : List ℚ) (u : List ℕ) (d : ℕ) :
    ∀ row ∈ buildSystem grid f u d, row.1.length = d + 2 := by
  intro row hrow
  obtain ⟨i, _, rfl⟩ := List.mem_map.mp hrow
  simp [powList_length]

/-- Any solution of the iteration's linear system has `d+2` components and
forces the residual at trial point `i` to be `(-1)^i` times the (signed)
level error, the last solution component. -/
theorem remezStepSolve_alternation (grid f : List ℚ) (u : List ℕ) (d : ℕ)
    (x : List ℚ) (hx : remezStepSolve grid f d u = some x) :
    x.length = d + 2 ∧ ∀ i < d + 2,
      f.getD (u.getD i 0) 0 - polyval (x.take (d + 1)) (grid.getD (u.getD i 0) 0)
        = (-1 : ℚ) ^ i * x.getLastD 0 := by
  obtain ⟨hlen, hsat⟩ :=
    gaussSolve_sound (d + 2) (buildSystem grid f u d) x (buildSystem_wf grid f u d) hx
  refine ⟨hlen, fun i hi => ?_⟩
  have hmem : (powList (grid.getD (u.getD i 0) 0) (d + 1) ++ [((-1 : ℚ)) ^ i],
      f.getD (u.getD i 0) 0) ∈ buildSystem grid f u d := by
    refine List.mem_map.mpr ⟨i, List.mem_range.mpr hi, rfl⟩
  have hrow := hsat _ hmem
  rw [dotQ_append, powList_length, dotQ_powList, List.take_take, min_self,
    drop_length_pred x (d + 1) hlen] at hrow
  simp only [dotQ] at hrow
  linarith [hrow]

lemma residualGrid_getD : ∀ (f grid : List ℚ) (p : List ℚ) (j : ℕ),
    j < f.length → j < grid.length →
    (residualGrid grid f p).getD j 0 = f.getD j 0 - polyval p (grid.getD j 0) := by
  intro f
  induction f with
  | nil => intro grid p j h; simp at h
  | cons fv f ih =>
    intro grid p j hf hg
    cases grid with
    | nil => simp at hg
    | cons g grid =>
      cases j with
      | zero => rfl
      | succ j =>
        have h1 : j < f.length := by simpa using hf
        have h2 : j < grid.length := by simpa using hg
        simpa [residualGrid] using ih grid p j h1 h2

lemma residualGrid_length (grid f p : List ℚ) :
    (residualGrid grid f p).length = min f.length grid.length := by
  simp [residualGrid]

/-! ## Helper lemmas on argmax, argmin, slices and sorted index lists -/

lemma argmaxAux_bound : ∀ (rest : List ℚ) (i bi : ℕ) (bv : ℚ),
    argmaxAux rest i bi bv = bi ∨
      (i ≤ argmaxAux rest i bi bv ∧ argmaxAux rest i bi bv < i + rest.length) := by
  intro rest
  induction rest with
  | nil => intro i bi bv; exact Or.inl rfl
  | cons v rest ih =>
    intro i bi bv
    rw [argmaxAux]
    by_cases hlt : bv < v
    · rw [if_pos hlt]
      rcases ih (i + 1) i v with h | h
      · right; rw [h]; simp
      · right
        refine ⟨le_trans (Nat.le_succ i) h.1, ?_⟩
        have hb := h.2
        simp only [List.length_cons]
        omega
    · rw [if_neg hlt]
      rcases ih (i + 1) bi bv with h | h
      · exact Or.inl h
      · right
        refine ⟨le_trans (Nat.le_succ i) h.1, ?_⟩
        have hb := h.2
        simp only [List.length_cons]
        omega

lemma argmaxList_lt_length (l : List ℚ) (h : l ≠ []) : argmaxList l < l.length := by
  cases l with
  | nil => exact absurd rfl h
  | cons v rest =>
    rw [argmaxList]
    rcases argmaxAux_bound rest 1 0 v with h' | h'
    · rw [h']; simp
    · simpa [Nat.add_comm] using h'.2

lemma argminAux_bound : ∀ (rest : List ℚ) (i bi : ℕ) (bv : ℚ),
    argminAux rest i bi bv = bi ∨
      (i ≤ argminAux rest i bi bv ∧ argminAux rest i bi bv < i + rest.length) := by
  intro rest
  induction rest with
  | nil => intro i bi bv; exact Or.inl rfl
  | cons v rest ih =>
    intro i bi bv
    rw [argminAux]
    by_cases hlt : v < bv
    · rw [if_pos hlt]
      rcases ih (i + 1) i v with h | h
      · right; rw [h]; simp
      · right
        refine ⟨le_trans (Nat.le_succ i) h.1, ?_⟩
        have hb := h.2
        simp only [List.length_cons]
        omega
    · rw [if_neg hlt]
      rcases ih (i + 1) bi bv with h | h
      · exact Or.inl h
      · right
        refine ⟨le_trans (Nat.le_succ i) h.1, ?_⟩
        have hb := h.2
        simp only [List.length_cons]
        omega

lemma argminList_lt_length (l : List ℚ) (h : l ≠ []) : argminList l < l.length := by
  cases l with
  | nil => exact absurd rfl h
  | cons v rest =>
    rw [argminList]
    rcases argminAux_bound rest 1 0 v with h' | h'
    · rw [h']; simp
    · simpa [Nat.add_comm] using h'.2

lemma argmaxAux_const : ∀ (rest : List ℚ) (i bi : ℕ) (bv : ℚ),
    (∀ x ∈ rest, ¬ bv < x) → argmaxAux rest i bi bv = bi := by
  intro rest
  induction rest with
  | nil => intro i bi bv _; rfl
  | cons v rest ih =>
    intro i bi bv hle
    rw [argmaxAux, if_neg (hle v (List.mem_cons_self _ _))]
    exact ih (i + 1) bi bv (fun x hx => hle x (List.mem_cons_of_mem _ hx))

/-- On a list whose entries are all equal, `np.argmax` returns 0. -/
lemma argmaxList_const (l : List ℚ) (c : ℚ) (hc : ∀ x ∈ l, x = c) :
    argmaxList l = 0 := by
  cases l with
  | nil => rfl
  | cons v rest =>
    rw [argmaxList]
    refine argmaxAux_const rest 1 0 v (fun x hx => ?_)
    rw [hc x (List.mem_cons_of_mem _ hx), hc v (List.mem_cons_self _ _)]
    exact lt_irrefl c

lemma sliceQ_length (r : List ℚ) (lo hi num : ℕ) (hr : r.length = num)
    (hhi : hi ≤ num) : (sliceQ r lo hi).length = hi - lo := by
  simp only [sliceQ, List.length_take, List.length_drop, hr]
  omega

lemma sorted_head_le (l : List ℕ) (hs : l.Sorted (· < ·)) :
    ∀ x ∈ l, l.headD 0 ≤ x := by
  cases l with
  | nil => intro x hx; simp at hx
  | cons a rest =>
    intro x hx
    rcases List.mem_cons.mp hx with rfl | hx
    · exact le_refl _
    · exact le_of_lt ((List.sorted_cons.mp hs).1 x hx)

lemma sorted_le_getLast : ∀ (l : List ℕ), l.Sorted (· < ·) →
    ∀ x ∈ l, x ≤ l.getLastD 0 := by
  intro l
  induction l with
  | nil => intro _ x hx; simp at hx
  | cons a rest ih =>
    intro hs x hx
    obtain ⟨h1, h2⟩ := List.sorted_cons.mp hs
    cases rest with
    | nil =>
      obtain rfl : x = a := by simpa using hx
      rfl
    | cons b m =>
      rcases List.mem_cons.mp hx with rfl | hx
      · calc x ≤ b := le_of_lt (h1 b (List.mem_cons_self _ _))
          _ ≤ (b :: m).getLastD 0 := ih h2 b (List.mem_cons_self _ _)
      · exact ih h2 x hx

lemma sorted_dropLast (l : List ℕ) (hs : l.Sorted (· < ·)) :
    l.dropLast.Sorted (· < ·) :=
  hs.sublist (List.dropLast_sublist l)

/-- The invariant of the trial-point set: `m` strictly increasing (hence
distinct) grid indices, all below the grid size `num`. -/
def TrialInv (num m : ℕ) (u : List ℕ) : Prop :=
  u.Sorted (· < ·) ∧ u.length = m ∧ ∀ i ∈ u, i < num

/-! ## The single-point exchange preserves the trial-set invariant -/

lemma matchSign_self (x : ℚ) : matchSign x x = true := by
  rcases lt_or_le x 0 with h | h
  · simp [matchSign, h]
  · simp [matchSign, h, not_lt.mpr h]

lemma matchSign_neg_nonneg {x y : ℚ} (hx : x < 0) (hy : 0 ≤ y) :
    matchSign x y = false := by
  simp [matchSign, not_lt.mpr hy, not_le.mpr hx]

lemma matchSign_nonneg_neg {x y : ℚ} (hx : 0 ≤ x) (hy : y < 0) :
    matchSign x y = false := by
  simp [matchSign, not_lt.mpr hx, not_le.mpr hy]

lemma setLast_eq (l : List ℕ) (x : ℕ) (h : l ≠ []) :
    setLast l x = l.dropLast ++ [x] := by
  cases l with
  | nil => exact absurd rfl h
  | cons a rest => rfl

lemma rollRight_eq (l : List ℕ) (h : l ≠ []) :
    rollRight l = l.getLastD 0 :: l.dropLast := by
  cases l with
  | nil => exact absurd rfl h
  | cons a rest => rfl

/-- The side condition on a pair of consecutive trial points under which the
interior single-exchange step keeps them strictly increasing. -/
def interCond (r : List ℚ) (pos : ℕ) (a b : ℕ) : Prop :=
  a ≤ pos → pos ≤ b →
    (matchSign (r.getD a 0) (r.getD pos 0) = true → pos < b) ∧
    (matchSign (r.getD a 0) (r.getD pos 0) = false → a < pos)

lemma interiorUpdate_length (r : List ℚ) (pos : ℕ) : ∀ (l : List ℕ),
    (interiorUpdate r pos l).length = l.length := by
  intro l
  induction l with
  | nil => rfl
  | cons a tail ih =>
    cases tail with
    | nil => rfl
    | cons b rest =>
      rw [interiorUpdate]
      split_ifs with h1 h2
      · rfl
      · rfl
      · simpa using ih

lemma interiorUpdate_mem (r : List ℚ) (pos : ℕ) : ∀ (l : List ℕ) (x : ℕ),
    x ∈ interiorUpdate r pos l → x ∈ l ∨ (x = pos ∧ ∃ a ∈ l, a ≤ pos) := by
  intro l
  induction l with
  | nil => intro x hx; exact Or.inl hx
  | cons a tail ih =>
    cases tail with
    | nil => intro x hx; exact Or.inl hx
    | cons b rest =>
      intro x hx
      rw [interiorUpdate] at hx
      split_ifs at hx with h1 h2
      · rcases List.mem_cons.mp hx with rfl | hx'
        · exact Or.inr ⟨rfl, a, List.mem_cons_self _ _, h1.1⟩
        · exact Or.inl (List.mem_cons_of_mem _ hx')
      · rcases List.mem_cons.mp hx with rfl | hx'
        · exact Or.inl (List.mem_cons_self _ _)
        · rcases List.mem_cons.mp hx' with rfl | hx''
          · exact Or.inr ⟨rfl, a, List.mem_cons_self _ _, h1.1⟩
          · exact Or.inl (List.mem_cons_of_mem _ (List.mem_cons_of_mem _ hx''))
      · rcases List.mem_cons.mp hx with rfl | hx'
        · exact Or.inl (List.mem_cons_self _ _)
        · rcases ih x hx' with h | ⟨rfl, a', ha', hle⟩
          · exact Or.inl (List.mem_cons_of_mem _ h)
          · exact Or.inr ⟨rfl, a', List.mem_cons_of_mem _ ha', hle⟩

lemma interiorUpdate_sorted (r : List ℚ) (pos : ℕ) : ∀ (l : List ℕ),
    l.Sorted (· < ·) → l.Chain' (interCond r pos) →
    (interiorUpdate r pos l).Sorted (· < ·) := by
  intro l
  induction l with
  | nil => intro hs _; exact hs
  | cons a tail ih =>
    cases tail with
    | nil => intro hs _; exact hs
    | cons b rest =>
      intro hs hc
      obtain ⟨hlt, hctail⟩ := List.chain'_cons.mp hc
      obtain ⟨hall, hstail⟩ := List.sorted_cons.mp hs
      obtain ⟨halltail, hsrest⟩ := List.sorted_cons.mp hstail
      have hab : a < b := hall b (List.mem_cons_self _ _)
      rw [interiorUpdate]
      split_ifs with h1 h2
      · obtain ⟨hposb, _⟩ := hlt h1.1 h1.2
        refine List.sorted_cons.mpr ⟨?_, hstail⟩
        intro y hy
        rcases List.mem_cons.mp hy with rfl | hy'
        · exact hposb h2
        · exact lt_trans (hposb h2) (halltail y hy')
      · obtain ⟨_, hapos⟩ := hlt h1.1 h1.2
        have hmf : matchSign (r.getD a 0) (r.getD pos 0) = false := by
          simpa using h2
        have hapos' : a < pos := hapos hmf
        refine List.sorted_cons.mpr ⟨?_, List.sorted_cons.mpr ⟨?_, hsrest⟩⟩
        · intro y hy
          rcases List.mem_cons.mp hy with rfl | hy'
          · exact hapos'
          · exact hall y (List.mem_cons_of_mem _ hy')
        · intro y hy
          exact lt_of_le_of_lt h1.2 (halltail y hy)
      · refine List.sorted_cons.mpr ⟨?_, ih hstail (List.chain'_cons.mp hc).2⟩
        intro y hy
        rcases interiorUpdate_mem r pos (b :: rest) y hy with hmem | ⟨rfl, a', ha', hle⟩
        · exact hall y hmem
        · exact lt_of_lt_of_le (hall a' ha') hle

lemma getD_eq_get : ∀ (l : List ℕ) (i : ℕ) (h : i < l.length),
    l.getD i 0 = l.get ⟨i, h⟩ := by
  intro l
  induction l with
  | nil => intro i h; simp at h
  | cons a rest ih =>
    intro i h
    cases i with
    | zero => rfl
    | succ i => exact ih i (by simpa using h)

/-- Inside a `remez_poly` iteration the residual at the trial points
alternates (`r (u i) = E * (-1)^i`) and the exchange position is the first
index of maximal `|r|`.  Under these facts every consecutive trial pair
satisfies the condition that keeps the interior exchange strictly sorted. -/
lemma interCond_of_alternating (r : List ℚ) (u : List ℕ) (pos : ℕ) (E : ℚ)
    (hs : u.Sorted (· < ·))
    (halt : ∀ i, i < u.length → r.getD (u.getD i 0) 0 = E * (-1) ^ i)
    (hfirst : ∀ k, k < pos → |r.getD k 0| < |r.getD pos 0|) :
    u.Chain' (interCond r pos) := by
  rw [List.chain'_iff_get]
  intro i hi
  have hi1 : i < u.length := by omega
  have hi2 : i + 1 < u.length := by omega
  have hab : u.get ⟨i, hi1⟩ < u.get ⟨i + 1, hi2⟩ := by
    have := List.pairwise_iff_get.mp hs
    exact this ⟨i, hi1⟩ ⟨i + 1, hi2⟩ (by simp)
  have ra : r.getD (u.get ⟨i, hi1⟩) 0 = E * (-1) ^ i := by
    rw [← getD_eq_get u i hi1]; exact halt i hi1
  have rb : r.getD (u.get ⟨i + 1, hi2⟩) 0 = -(E * (-1) ^ i) := by
    rw [← getD_eq_get u (i + 1) hi2, halt (i + 1) hi2, pow_succ]
    ring
  intro hapos hposb
  by_cases hE : E = 0
  · subst hE
    rw [zero_mul] at ra
    rw [zero_mul, neg_zero] at rb
    by_cases hrp : r.getD pos 0 = 0
    · have hpos0 : pos = 0 := by
        by_contra hne
        have h0 := hfirst 0 (Nat.pos_of_ne_zero hne)
        rw [hrp, abs_zero] at h0
        exact absurd h0 (not_lt.mpr (abs_nonneg _))
      constructor
      · intro _
        omega
      · intro hfalse
        rw [ra, hrp, matchSign_self] at hfalse
        exact absurd hfalse (by simp)
    · have hpa : pos ≠ u.get ⟨i, hi1⟩ := by
        intro h
        rw [h, ra] at hrp
        exact hrp rfl
      have hpb : pos ≠ u.get ⟨i + 1, hi2⟩ := by
        intro h
        rw [h, rb] at hrp
        exact hrp rfl
      exact ⟨fun _ => lt_of_le_of_ne hposb hpb,
        fun _ => lt_of_le_of_ne hapos (Ne.symm hpa)⟩
  · have hs0 : E * (-1) ^ i ≠ 0 :=
      mul_ne_zero hE (pow_ne_zero _ (by norm_num))
    constructor
    · intro hm
      refine lt_of_le_of_ne hposb (fun hposeq => ?_)
      rw [hposeq, ra, rb] at hm
      rcases lt_or_gt_of_ne hs0 with hneg | hpos'
      · rw [matchSign_neg_nonneg hneg (by linarith)] at hm
        exact absurd hm (by simp)
      · rw [matchSign_nonneg_neg (le_of_lt hpos') (by linarith)] at hm
        exact absurd hm (by simp)
    · intro hm
      refine lt_of_le_of_ne hapos (fun haeq => ?_)
      rw [← haeq, ra, matchSign_self] at hm
      exact absurd hm (by simp)

/-- The single-point exchange maps a strictly increasing trial set to a
strictly increasing set of the same length with all indices in range,
provided the residual alternates at the trial points and `pos` is a first
position of maximal absolute residual. -/
lemma exchangeSingle_inv (r : List ℚ) (num : ℕ) (u : List ℕ) (pos : ℕ) (E : ℚ)
    (hs : u.Sorted (· < ·)) (hbound : ∀ i ∈ u, i < num) (hpos : pos < num)
    (halt : ∀ i, i < u.length → r.getD (u.getD i 0) 0 = E * (-1) ^ i)
    (hfirst : ∀ k, k < pos → |r.getD k 0| < |r.getD pos 0|) :
    (exchangeSingle r u pos).Sorted (· < ·) ∧
      (exchangeSingle r u pos).length = u.length ∧
      ∀ i ∈ exchangeSingle r u pos, i < num := by
  rw [exchangeSingle]
  by_cases h1 : pos < u.headD 0
  · rw [if_pos h1]
    cases u with
    | nil => simp at h1
    | cons a rest =>
      simp only [List.headD_cons] at h1 ⊢
      obtain ⟨hall, hstail⟩ := List.sorted_cons.mp hs
      split_ifs with hm
      · rw [List.set_cons_zero]
        refine ⟨List.sorted_cons.mpr ⟨fun y hy => lt_trans h1 (hall y hy), hstail⟩,
          by simp, ?_⟩
        intro i hi
        rcases List.mem_cons.mp hi with rfl | hi'
        · exact hpos
        · exact hbound i (List.mem_cons_of_mem _ hi')
      · rw [rollRight_eq _ (by simp), List.set_cons_zero]
        refine ⟨List.sorted_cons.mpr ⟨?_, sorted_dropLast _ hs⟩, by simp, ?_⟩
        · intro y hy
          have hyu : y ∈ a :: rest := (List.dropLast_sublist _).subset hy
          exact lt_of_lt_of_le h1 (sorted_head_le _ hs y hyu)
        · intro i hi
          rcases List.mem_cons.mp hi with rfl | hi'
          · exact hpos
          · exact hbound i ((List.dropLast_sublist _).subset hi')
  · rw [if_neg h1]
    by_cases h2 : u.getLastD 0 < pos
    · rw [if_pos h2]
      cases u with
      | nil => split_ifs <;> simp [setLast, rollLeft]
      | cons a rest =>
        obtain ⟨hall, hstail⟩ := List.sorted_cons.mp hs
        split_ifs with hm
        · rw [setLast_eq _ _ (by simp)]
          refine ⟨?_, ?_, ?_⟩
          · refine List.pairwise_append.mpr ⟨sorted_dropLast _ hs, by simp, ?_⟩
            intro x hx y hy
            obtain rfl : y = pos := by simpa using hy
            have hxu : x ∈ a :: rest := (List.dropLast_sublist _).subset hx
            exact lt_of_le_of_lt (sorted_le_getLast _ hs x hxu) h2
          · simp [List.length_dropLast]
          · intro i hi
            rcases List.mem_append.mp hi with hi' | hi'
            · exact hbound i ((List.dropLast_sublist _).subset hi')
            · obtain rfl : i = pos := by simpa using hi'
              exact hpos
        · rw [rollLeft, setLast_eq _ _ (by simp), List.dropLast_concat]
          refine ⟨?_, ?_, ?_⟩
          · refine List.pairwise_append.mpr ⟨hstail, by simp, ?_⟩
            intro x hx y hy
            obtain rfl : y = pos := by simpa using hy
            exact lt_of_le_of_lt
              (sorted_le_getLast _ hs x (List.mem_cons_of_mem _ hx)) h2
          · simp
          · intro i hi
            rcases List.mem_append.mp hi with hi' | hi'
            · exact hbound i (List.mem_cons_of_mem _ hi')
            · obtain rfl : i = pos := by simpa using hi'
              exact hpos
    · rw [if_neg h2]
      refine ⟨interiorUpdate_sorted r pos u hs
        (interCond_of_alternating r u pos E hs halt hfirst),
        interiorUpdate_length r pos u, ?_⟩
      intro i hi
      rcases interiorUpdate_mem r pos u i hi with h | ⟨rfl, _⟩
      · exact hbound i h
      · exact hpos

/-! ## The multi-point exchange preserves the trial-set invariant -/

lemma exchangeSeg_bounds (r : List ℚ) (num lo mi hi : ℕ) (hr : r.length = num)
    (hlohi : lo < hi) (hhi : hi ≤ num) :
    lo ≤ exchangeSeg r lo mi hi ∧ exchangeSeg r lo mi hi < hi := by
  have hlen : (sliceQ r lo hi).length = hi - lo := sliceQ_length r lo hi num hr hhi
  have hne : sliceQ r lo hi ≠ [] := by
    intro h
    rw [h] at hlen
    simp at hlen
    omega
  constructor
  · rw [exchangeSeg]
    exact Nat.le_add_right _ _
  · rw [exchangeSeg]
    split_ifs with hneg
    · have := argminList_lt_length _ hne
      rw [hlen] at this
      omega
    · have := argmaxList_lt_length _ hne
      rw [hlen] at this
      omega

lemma multiMain_inv (r : List ℚ) (num : ℕ) (hr : r.length = num) :
    ∀ (l : List ℕ) (pu pv : ℕ),
    l ≠ [] → l.Sorted (· < ·) → (∀ x ∈ l, x < num) →
    pu < l.headD 0 → pv < l.headD 0 →
    (multiMain r num pu pv l).Sorted (· < ·) ∧
      (multiMain r num pu pv l).length = l.length ∧
      (∀ x ∈ multiMain r num pu pv l, x < num) ∧
      max pv pu < (multiMain r num pu pv l).headD 0 := by
  intro l
  induction l with
  | nil => intro pu pv hne; exact absurd rfl hne
  | cons mi tail ih =>
    intro pu pv _ hs hbound hpu hpv
    simp only [List.headD_cons] at hpu hpv
    have hmi : mi < num := hbound mi (List.mem_cons_self _ _)
    cases tail with
    | nil =>
      obtain ⟨hseg1, hseg2⟩ := exchangeSeg_bounds r num (max pv pu + 1) mi num hr
        (by omega) (le_refl _)
      rw [multiMain]
      refine ⟨List.sorted_singleton _, rfl, ?_, ?_⟩
      · intro x hx
        obtain rfl : x = exchangeSeg r (max pv pu + 1) mi num := by simpa using hx
        omega
      · simp only [List.headD_cons]
        omega
    | cons hi rest =>
      obtain ⟨hall, hstail⟩ := List.sorted_cons.mp hs
      have hmihi : mi < hi := hall hi (List.mem_cons_self _ _)
      have hhi : hi < num := hbound hi (List.mem_cons_of_mem _ (List.mem_cons_self _ _))
      have hseg := exchangeSeg_bounds r num (max pv pu + 1) mi hi hr
        (by omega) (le_of_lt hhi)
      rw [multiMain]
      obtain ⟨ihs, ihlen, ihbound, ihhead⟩ :=
        ih mi (exchangeSeg r (max pv pu + 1) mi hi) (by simp)
          hstail (fun x hx => hbound x (List.mem_cons_of_mem _ hx))
          (by simpa using hmihi) (by simpa using hseg.2)
      refine ⟨?_, by simpa using ihlen, ?_, ?_⟩
      · refine List.sorted_cons.mpr ⟨?_, ihs⟩
        intro y hy
        have hyhead := sorted_head_le _ ihs y hy
        omega
      · intro x hx
        rcases List.mem_cons.mp hx with rfl | hx'
        · omega
        · exact ihbound x hx'
      · simp only [List.headD_cons]
        omega

lemma multiPoints_inv (r : List ℚ) (num : ℕ) (u : List ℕ) (hr : r.length = num)
    (h2 : 2 ≤ u.length) (hs : u.Sorted (· < ·)) (hbound : ∀ x ∈ u, x < num) :
    (multiPoints r num u).Sorted (· < ·) ∧
      (multiPoints r num u).length = u.length ∧
      ∀ x ∈ multiPoints r num u, x < num := by
  cases u with
  | nil => simp at h2
  | cons u0 tail =>
    cases tail with
    | nil => simp at h2
    | cons u1 rest =>
      obtain ⟨hall, hstail⟩ := List.sorted_cons.mp hs
      have hu01 : u0 < u1 := hall u1 (List.mem_cons_self _ _)
      have hu1 : u1 < num := hbound u1 (List.mem_cons_of_mem _ (List.mem_cons_self _ _))
      have hseg := exchangeSeg_bounds r num 0 u0 u1 hr (by omega) (le_of_lt hu1)
      rw [multiPoints]
      obtain ⟨ihs, ihlen, ihbound, ihhead⟩ :=
        multiMain_inv r num hr (u1 :: rest) u0 (exchangeSeg r 0 u0 u1)
          (by simp) hstail (fun x hx => hbound x (List.mem_cons_of_mem _ hx))
          (by simpa using hu01) (by simpa using hseg.2)
      refine ⟨?_, by simpa using ihlen, ?_⟩
      · refine List.sorted_cons.mpr ⟨?_, ihs⟩
        intro y hy
        have hyhead := sorted_head_le _ ihs y hy
        omega
      · intro x hx
        rcases List.mem_cons.mp hx with rfl | hx'
        · omega
        · exact ihbound x hx'

lemma headD_mem (l : List ℕ) (h : l ≠ []) : l.headD 0 ∈ l := by
  cases l with
  | nil => exact absurd rfl h
  | cons a rest => exact List.mem_cons_self _ _

lemma argmax_abs_slice_lt (r : List ℚ) (num lo hi : ℕ) (hr : r.length = num)
    (hlo : lo < hi) (hhi : hi ≤ num) :
    argmaxList ((sliceQ r lo hi).map (fun v => |v|)) < hi - lo := by
  have hslice : ((sliceQ r lo hi).map (fun v => |v|)).length = hi - lo := by
    rw [List.length_map, sliceQ_length r lo hi num hr hhi]
  have hne : (sliceQ r lo hi).map (fun v => |v|) ≠ [] := by
    intro h
    rw [h] at hslice
    simp at hslice
    omega
  have hlt := argmaxList_lt_length _ hne
  rw [hslice] at hlt
  exact hlt

lemma probeLeft_spec (r : List ℚ) (u upd : List ℕ) (num : ℕ)
    (hr : r.length = num) (hv0 : upd.headD 0 < num) :
    (probeLeft r u upd).2 = 0 ∨ (probeLeft r u upd).1 < upd.headD 0 := by
  rw [probeLeft]
  dsimp only
  split_ifs with h1 h2 h3
  · exact Or.inl rfl
  · refine Or.inr ?_
    have hb := argmax_abs_slice_lt r num 0 (min (upd.headD 0) (u.headD 0)) hr h1
      (le_trans (min_le_left _ _) (le_of_lt hv0))
    have hmin : min (upd.headD 0) (u.headD 0) ≤ upd.headD 0 := min_le_left _ _
    omega
  · exact Or.inl rfl
  · exact Or.inl rfl

lemma probeRight_spec (r : List ℚ) (num : ℕ) (u upd : List ℕ) (fm : ℚ)
    (hr : r.length = num) :
    (probeRight r num u upd fm).2 = 0 ∨
      (upd.getLastD 0 < (probeRight r num u upd fm).1 ∧
        (probeRight r num u upd fm).1 < num) := by
  rw [probeRight]
  dsimp only
  split_ifs with h1 h2 h3
  · exact Or.inl rfl
  · refine Or.inr ?_
    have hb := argmax_abs_slice_lt r num (max (upd.getLastD 0) (u.getLastD 0) + 1)
      num hr h1 (le_refl _)
    constructor
    · omega
    · omega
  · exact Or.inl rfl
  · exact Or.inl rfl

lemma setLast_rollLeft_inv (upd : List ℕ) (x num : ℕ) (hne : upd ≠ [])
    (hs : upd.Sorted (· < ·)) (hb : ∀ y ∈ upd, y < num)
    (hx : upd.getLastD 0 < x) (hxnum : x < num) :
    (setLast (rollLeft upd) x).Sorted (· < ·) ∧
      (setLast (rollLeft upd) x).length = upd.length ∧
      ∀ y ∈ setLast (rollLeft upd) x, y < num := by
  cases upd with
  | nil => exact absurd rfl hne
  | cons a rest =>
    obtain ⟨hall, hstail⟩ := List.sorted_cons.mp hs
    have heq : setLast (rollLeft (a :: rest)) x = rest ++ [x] := by
      simp only [rollLeft]
      rw [setLast_eq _ _ (by simp), List.dropLast_concat]
    rw [heq]
    refine ⟨?_, by simp, ?_⟩
    · refine List.pairwise_append.mpr ⟨hstail, by simp, ?_⟩
      intro y hy z hz
      obtain rfl : z = x := by simpa using hz
      exact lt_of_le_of_lt
        (sorted_le_getLast _ hs y (List.mem_cons_of_mem _ hy)) hx
    · intro y hy
      rcases List.mem_append.mp hy with hy' | hy'
      · exact hb y (List.mem_cons_of_mem _ hy')
      · obtain rfl : y = x := by simpa using hy'
        exact hxnum

lemma set_rollRight_inv (upd : List ℕ) (x num : ℕ) (hne : upd ≠ [])
    (hs : upd.Sorted (· < ·)) (hb : ∀ y ∈ upd, y < num)
    (hx : x < upd.headD 0) :
    ((rollRight upd).set 0 x).Sorted (· < ·) ∧
      ((rollRight upd).set 0 x).length = upd.length ∧
      ∀ y ∈ (rollRight upd).set 0 x, y < num := by
  have hxnum : x < num :=
    lt_trans hx (hb _ (headD_mem upd hne))
  rw [rollRight_eq _ hne, List.set_cons_zero]
  refine ⟨?_, by
      cases upd with
      | nil => exact absurd rfl hne
      | cons a rest => simp, ?_⟩
  · refine List.sorted_cons.mpr ⟨?_, sorted_dropLast _ hs⟩
    intro y hy
    have hyu : y ∈ upd := (List.dropLast_sublist _).subset hy
    exact lt_of_lt_of_le hx (sorted_head_le _ hs y hyu)
  · intro y hy
    rcases List.mem_cons.mp hy with rfl | hy'
    · exact hxnum
    · exact hb y ((List.dropLast_sublist _).subset hy')

lemma probeAdjust_inv (r : List ℚ) (num : ℕ) (u upd : List ℕ)
    (hr : r.length = num) (hne : upd ≠ []) (hs : upd.Sorted (· < ·))
    (hb : ∀ x ∈ upd, x < num) :
    (probeAdjust r num u upd).Sorted (· < ·) ∧
      (probeAdjust r num u upd).length = upd.length ∧
      ∀ x ∈ probeAdjust r num u upd, x < num := by
  simp only [probeAdjust]
  by_cases hl : 0 < (probeRight r num u upd (probeLeft r u upd).2).2
  · rw [if_pos hl]
    obtain ⟨hgt, hlt⟩ :=
      (probeRight_spec r num u upd (probeLeft r u upd).2 hr).resolve_left
        (ne_of_gt hl)
    exact setLast_rollLeft_inv upd _ num hne hs hb hgt hlt
  · rw [if_neg hl]
    by_cases hf : 0 < (probeLeft r u upd).2
    · rw [if_pos hf]
      have hv0 : upd.headD 0 < num := hb _ (headD_mem upd hne)
      exact set_rollRight_inv upd _ num hne hs hb
        ((probeLeft_spec r u upd num hr hv0).resolve_left (ne_of_gt hf))
    · rw [if_neg hf]
      exact ⟨hs, rfl, hb⟩

/-- The multi-point exchange maps a strictly increasing trial set with
in-range indices to another one of the same length. -/
lemma multiExchange_inv (r : List ℚ) (num : ℕ) (u : List ℕ)
    (hr : r.length = num) (h2 : 2 ≤ u.length) (hs : u.Sorted (· < ·))
    (hb : ∀ x ∈ u, x < num) :
    (multiExchange r num u).Sorted (· < ·) ∧
      (multiExchange r num u).length = u.length ∧
      ∀ x ∈ multiExchange r num u, x < num := by
  obtain ⟨hps, hplen, hpb⟩ := multiPoints_inv r num u hr h2 hs hb
  have hpne : multiPoints r num u ≠ [] := by
    intro h
    rw [h] at hplen
    simp at hplen
    omega
  obtain ⟨has, halen, hab⟩ :=
    probeAdjust_inv r num u (multiPoints r num u) hr hpne hps hpb
  exact ⟨has, by rw [multiExchange, halen, hplen], by rw [multiExchange]; exact hab⟩

/-! ## Unfolding and success characterisation of the iteration loops -/

lemma le_foldl_max : ∀ (l : List ℚ) (b : ℚ), b ≤ l.foldl max b := by
  intro l
  induction l with
  | nil => intro b; exact le_refl b
  | cons a l ih =>
    intro b
    exact le_trans (le_max_left b a) (ih (max b a))

lemma amaxQ_abs_nonneg (l : List ℚ) (h : l ≠ []) :
    0 ≤ amaxQ (l.map (fun v => |v|)) := by
  cases l with
  | nil => exact absurd rfl h
  | cons v rest =>
    rw [amaxQ]
    refine le_trans (abs_nonneg v) ?_
    exact le_trans (le_refl _) (by simpa using le_foldl_max _ |v|)

lemma remezLoopFirst_succ_none (scale : ℚ) (grid f : List ℚ) (d fuel k : ℕ)
    (err : ℚ) (u : List ℕ) (hs : remezStepSolve grid f d u = none) :
    remezLoopFirst scale grid f d (fuel + 1) k err u = .solveFailure := by
  rw [remezLoopFirst, hs]

lemma remezLoopFirst_succ_some (scale : ℚ) (grid f : List ℚ) (d fuel k : ℕ)
    (err : ℚ) (u : List ℕ) (x : List ℚ)
    (hs : remezStepSolve grid f d u = some x) :
    remezLoopFirst scale grid f d (fuel + 1) k err u =
      if |x.getLastD 0| < scale * err then
        .success (x.take (d + 1)) |x.getLastD 0| (k + 1)
      else
        remezLoopFirst scale grid f d fuel (k + 1) |x.getLastD 0|
          (exchangeSingle (residualGrid grid f (x.take (d + 1))) u
            (argmaxList ((residualGrid grid f (x.take (d + 1))).map (fun v => |v|)))) := by
  rw [remezLoopFirst, hs]

lemma remezLoopMinmax_succ_none (scale : ℚ) (grid f : List ℚ) (d fuel k : ℕ)
    (err : ℚ) (u : List ℕ) (hs : remezStepSolve grid f d u = none) :
    remezLoopMinmax scale grid f d (fuel + 1) k err u = .solveFailure := by
  rw [remezLoopMinmax, hs]

lemma remezLoopMinmax_succ_some (scale : ℚ) (grid f : List ℚ) (d fuel k : ℕ)
    (err : ℚ) (u : List ℕ) (x : List ℚ)
    (hs : remezStepSolve grid f d u = some x) :
    remezLoopMinmax scale grid f d (fuel + 1) k err u =
      if |x.getLastD 0| ≤ scale * err then
        .success (x.take (d + 1)) |x.getLastD 0| (k + 1)
      else
        remezLoopMinmax scale grid f d fuel (k + 1) |x.getLastD 0|
          (exchangeSingle (residualGrid grid f (x.take (d + 1))) u
            (argmaxList ((residualGrid grid f (x.take (d + 1))).map (fun v => |v|)))) := by
  rw [remezLoopMinmax, hs]

lemma remezLoopSecond_succ_none (scale : ℚ) (grid f : List ℚ) (num d fuel k : ℕ)
    (err : ℚ) (u : List ℕ) (hs : remezStepSolve grid f d u = none) :
    remezLoopSecond scale grid f num d (fuel + 1) k err u = .solveFailure := by
  rw [remezLoopSecond, hs]

lemma remezLoopSecond_succ_some (scale : ℚ) (grid f : List ℚ) (num d fuel k : ℕ)
    (err : ℚ) (u : List ℕ) (x : List ℚ)
    (hs : remezStepSolve grid f d u = some x) :
    remezLoopSecond scale grid f num d (fuel + 1) k err u =
      if |x.getLastD 0| < scale * err then
        .success (x.take (d + 1)) |x.getLastD 0| (k + 1)
      else
        remezLoopSecond scale grid f num d fuel (k + 1) |x.getLastD 0|
          (if |x.getLastD 0| = 0 then
            exchangeSingle (residualGrid grid f (x.take (d + 1))) u
              (argmaxList ((residualGrid grid f (x.take (d + 1))).map (fun v => |v|)))
          else multiExchange (residualGrid grid f (x.take (d + 1))) num u) := by
  rw [remezLoopSecond, hs]

lemma remezLoopRemesSecond_succ_none (scale : ℚ) (grid f : List ℚ)
    (num d fuel k : ℕ) (err : ℚ) (u : List ℕ)
    (hs : remezStepSolve grid f d u = none) :
    remezLoopRemesSecond scale grid f num d (fuel + 1) k err u = .solveFailure := by
  rw [remezLoopRemesSecond, hs]

lemma remezLoopRemesSecond_succ_some (scale : ℚ) (grid f : List ℚ)
    (num d fuel k : ℕ) (err : ℚ) (u : List ℕ) (x : List ℚ)
    (hs : remezStepSolve grid f d u = some x) :
    remezLoopRemesSecond scale grid f num d (fuel + 1) k err u =
      if |x.getLastD 0| < scale * err then
        .success (x.take (d + 1))
          (amaxQ ((residualGrid grid f (x.take (d + 1))).map (fun v => |v|))) (k + 1)
      else
        remezLoopRemesSecond scale grid f num d fuel (k + 1) |x.getLastD 0|
          (multiExchange (residualGrid grid f (x.take (d + 1))) num u) := by
  rw [remezLoopRemesSecond, hs]

lemma remezLoopFirst_success_spec (scale : ℚ) (grid f : List ℚ) (d : ℕ) :
    ∀ (fuel k : ℕ) (err : ℚ) (u : List ℕ) (p : List ℚ) (e : ℚ) (i : ℕ),
    remezLoopFirst scale grid f d fuel k err u = .success p e i →
    k + 1 ≤ i ∧ i ≤ k + fuel ∧
      ∃ u' x, remezStepSolve grid f d u' = some x ∧
        p = x.take (d + 1) ∧ e = |x.getLastD 0| := by
  intro fuel
  induction fuel with
  | zero =>
    intro k err u p e i h
    rw [remezLoopFirst] at h
    exact absurd h (by simp)
  | succ fuel ih =>
    intro k err u p e i h
    cases hsolve : remezStepSolve grid f d u with
    | none =>
      rw [remezLoopFirst_succ_none scale grid f d fuel k err u hsolve] at h
      exact absurd h (by simp)
    | some x =>
      rw [remezLoopFirst_succ_some scale grid f d fuel k err u x hsolve] at h
      split_ifs at h with htest
      · injection h with hp he hi
        exact ⟨by omega, by omega, u, x, hsolve, hp.symm, he.symm⟩
      · obtain ⟨h1, h2, h3⟩ := ih (k + 1) _ _ p e i h
        exact ⟨by omega, by omega, h3⟩

lemma remezLoopMinmax_success_spec (scale : ℚ) (grid f : List ℚ) (d : ℕ) :
    ∀ (fuel k : ℕ) (err : ℚ) (u : List ℕ) (p : List ℚ) (e : ℚ) (i : ℕ),
    remezLoopMinmax scale grid f d fuel k err u = .success p e i →
    k + 1 ≤ i ∧ i ≤ k + fuel ∧
      ∃ u' x, remezStepSolve grid f d u' = some x ∧
        p = x.take (d + 1) ∧ e = |x.getLastD 0| := by
  intro fuel
  induction fuel with
  | zero =>
    intro k err u p e i h
    rw [remezLoopMinmax] at h
    exact absurd h (by simp)
  | succ fuel ih =>
    intro k err u p e i h
    cases hsolve : remezStepSolve grid f d u with
    | none =>
      rw [remezLoopMinmax_succ_none scale grid f d fuel k err u hsolve] at h
      exact absurd h (by simp)
    | some x =>
      rw [remezLoopMinmax_succ_some scale grid f d fuel k err u x hsolve] at h
      split_ifs at h with htest
      · injection h with hp he hi
        exact ⟨by omega, by omega, u, x, hsolve, hp.symm, he.symm⟩
      · obtain ⟨h1, h2, h3⟩ := ih (k + 1) _ _ p e i h
        exact ⟨by omega, by omega, h3⟩

lemma remezLoopSecond_success_spec (scale : ℚ) (grid f : List ℚ) (num d : ℕ) :
    ∀ (fuel k : ℕ) (err : ℚ) (u : List ℕ) (p : List ℚ) (e : ℚ) (i : ℕ),
    remezLoopSecond scale grid f num d fuel k err u = .success p e i →
    k + 1 ≤ i ∧ i ≤ k + fuel ∧
      ∃ u' x, remezStepSolve grid f d u' = some x ∧
        p = x.take (d + 1) ∧ e = |x.getLastD 0| := by
  intro fuel
  induction fuel with
  | zero =>
    intro k err u p e i h
    rw [remezLoopSecond] at h
    exact absurd h (by simp)
  | succ fuel ih =>
    intro k err u p e i h
    cases hsolve : remezStepSolve grid f d u with
    | none =>
      rw [remezLoopSecond_succ_none scale grid f num d fuel k err u hsolve] at h
      exact absurd h (by simp)
    | some x =>
      rw [remezLoopSecond_succ_some scale grid f num d fuel k err u x hsolve] at h
      by_cases htest : |x.getLastD 0| < scale * err
      · rw [if_pos htest] at h
        injection h with hp he hi
        exact ⟨by omega, by omega, u, x, hsolve, hp.symm, he.symm⟩
      · rw [if_neg htest] at h
        obtain ⟨h1, h2, h3⟩ := ih (k + 1) _ _ p e i h
        exact ⟨by omega, by omega, h3⟩

lemma remezLoopRemesSecond_success_spec (scale : ℚ) (grid f : List ℚ)
    (num d : ℕ) :
    ∀ (fuel k : ℕ) (err : ℚ) (u : List ℕ) (p : List ℚ) (e : ℚ) (i : ℕ),
    remezLoopRemesSecond scale grid f num d fuel k err u = .success p e i →
    k + 1 ≤ i ∧ i ≤ k + fuel ∧
      ∃ u' x, remezStepSolve grid f d u' = some x ∧ p = x.take (d + 1) ∧
        e = amaxQ ((residualGrid grid f p).map (fun v => |v|)) := by
  intro fuel
  induction fuel with
  | zero =>
    intro k err u p e i h
    rw [remezLoopRemesSecond] at h
    exact absurd h (by simp)
  | succ fuel ih =>
    intro k err u p e i h
    cases hsolve : remezStepSolve grid f d u with
    | none =>
      rw [remezLoopRemesSecond_succ_none scale grid f num d fuel k err u hsolve] at h
      exact absurd h (by simp)
    | some x =>
      rw [remezLoopRemesSecond_succ_some scale grid f num d fuel k err u x hsolve] at h
      split_ifs at h with htest
      · injection h with hp he hi
        refine ⟨by omega, by omega, u, x, hsolve, hp.symm, ?_⟩
        rw [← hp]
        exact he.symm
      · obtain ⟨h1, h2, h3⟩ := ih (k + 1) _ _ p e i h
        exact ⟨by omega, by omega, h3⟩

/-! ## C2: both exchange strategies preserve the trial-set invariant -/

/-- C2: Every exchange step maps a trial-point set of exactly `n_deg+2`
distinct, strictly increasing grid indices to another such set.  The
multi-point exchange preserves the invariant for any residual; the
single-point exchange preserves it given the facts that hold inside
`remez_poly` when it is invoked: the residual alternates at the trial points
(`r (u i) = E * (-1)^i`, forced by the solved linear system) and the exchange
position is the first index of maximal absolute residual (`np.argmax`). -/
theorem c2_exchange_invariant :
    (∀ (r : List ℚ) (num d : ℕ) (u : List ℕ) (pos : ℕ) (E : ℚ),
      TrialInv num (d + 2) u → pos < num →
      (∀ i, i < u.length → r.getD (u.getD i 0) 0 = E * (-1) ^ i) →
      (∀ k, k < pos → |r.getD k 0| < |r.getD pos 0|) →
      TrialInv num (d + 2) (exchangeSingle r u pos)) ∧
    (∀ (r : List ℚ) (num d : ℕ) (u : List ℕ),
      r.length = num → TrialInv num (d + 2) u →
      TrialInv num (d + 2) (multiExchange r num u)) := by
  constructor
  · intro r num d u pos E hinv hpos halt hfirst
    obtain ⟨hs, hlen, hb⟩ := hinv
    obtain ⟨h1, h2, h3⟩ := exchangeSingle_inv r num u pos E hs hb hpos halt hfirst
    exact ⟨h1, h2.trans hlen, h3⟩
  · intro r num d u hr hinv
    obtain ⟨hs, hlen, hb⟩ := hinv
    obtain ⟨h1, h2, h3⟩ := multiExchange_inv r num u hr (by omega) hs hb
    exact ⟨h1, h2.trans hlen, h3⟩

/-- Witness for C2 at a concrete instance. -/
theorem c2_exchange_invariant_witness :
    TrialInv 3 2 (exchangeSingle [1, -1, 5] [0, 1] 2) ∧
      TrialInv 3 2 (multiExchange [1, -1, 5] 3 [0, 1]) :=
  ⟨c2_exchange_invariant.1 [1, -1, 5] 3 0 [0, 1] 2 1
      ⟨by decide, by decide, by decide⟩ (by decide)
      (by
        intro i hi
        have hi2 : i < 2 := by simpa using hi
        interval_cases i <;>
          norm_num [List.getD_cons_zero, List.getD_cons_succ])
      (by
        intro k hk
        interval_cases k <;>
          norm_num [List.getD_cons_zero, List.getD_cons_succ]),
    c2_exchange_invariant.2 [1, -1, 5] 3 0 [0, 1] (by decide)
      ⟨by decide, by decide, by decide⟩⟩

/-! ## C7: if the convergence test never passes, the caller gets a failure -/

/-- `true` when the convergence test of `first_algorithm.remez_poly` (and
`remes_first_algorithm.remez_poly`) evaluates to false at every one of the
next `fuel` iterations starting from saved error `err` and trial points `u`
(trivially `true` past a failing solve, which aborts by exception anyway). -/
def testNeverPassesFirst (scale : ℚ) (grid f : List ℚ) (d : ℕ) :
    ℕ → ℚ → List ℕ → Bool
  | 0, _, _ => true
  | fuel + 1, err, u =>
    match remezStepSolve grid f d u with
    | none => true
    | some x =>
      !(decide (|x.getLastD 0| < scale * err)) &&
        testNeverPassesFirst scale grid f d fuel |x.getLastD 0|
          (exchangeSingle (residualGrid grid f (x.take (d + 1))) u
            (argmaxList ((residualGrid grid f (x.take (d + 1))).map (fun v => |v|))))

/-- The analogue of `testNeverPassesFirst` for
`remes_second_algorithm.remez_poly`. -/
def testNeverPassesRemesSecond (scale : ℚ) (grid f : List ℚ) (num d : ℕ) :
    ℕ → ℚ → List ℕ → Bool
  | 0, _, _ => true
  | fuel + 1, err, u =>
    match remezStepSolve grid f d u with
    | none => true
    | some x =>
      !(decide (|x.getLastD 0| < scale * err)) &&
        testNeverPassesRemesSecond scale grid f num d fuel |x.getLastD 0|
          (multiExchange (residualGrid grid f (x.take (d + 1))) num u)

/-- C7: on every input on which the convergence test is never satisfied
within the iteration budget, `remez_poly` does not return normally — the
caller never receives coefficients, only the non-convergence or solve
failure exception (`first_algorithm.py` line 165, `remes_second_algorithm.py`
line 181). -/
theorem c7_no_partial_result :
    (∀ (scale : ℚ) (grid f : List ℚ) (d fuel k : ℕ) (err : ℚ) (u : List ℕ),
      testNeverPassesFirst scale grid f d fuel err u = true →
      ∀ p e i, remezLoopFirst scale grid f d fuel k err u ≠ .success p e i) ∧
    (∀ (scale : ℚ) (grid f : List ℚ) (num d fuel k : ℕ) (err : ℚ) (u : List ℕ),
      testNeverPassesRemesSecond scale grid f num d fuel err u = true →
      ∀ p e i, remezLoopRemesSecond scale grid f num d fuel k err u ≠ .success p e i) := by
  constructor
  · intro scale grid f d fuel
    induction fuel with
    | zero =>
      intro k err u _ p e i h
      rw [remezLoopFirst] at h
      exact absurd h (by simp)
    | succ fuel ih =>
      intro k err u htnp p e i h
      cases hsolve : remezStepSolve grid f d u with
      | none =>
        rw [remezLoopFirst_succ_none scale grid f d fuel k err u hsolve] at h
        exact absurd h (by simp)
      | some x =>
        rw [testNeverPassesFirst, hsolve, Bool.and_eq_true] at htnp
        obtain ⟨hneq, htnp'⟩ := htnp
        have htest : ¬ (|x.getLastD 0| < scale * err) := by
          simpa using hneq
        rw [remezLoopFirst_succ_some scale grid f d fuel k err u x hsolve,
          if_neg htest] at h
        exact ih (k + 1) _ _ htnp' p e i h
  · intro scale grid f num d fuel
    induction fuel with
    | zero =>
      intro k err u _ p e i h
      rw [remezLoopRemesSecond] at h
      exact absurd h (by simp)
    | succ fuel ih =>
      intro k err u htnp p e i h
      cases hsolve : remezStepSolve grid f d u with
      | none =>
        rw [remezLoopRemesSecond_succ_none scale grid f num d fuel k err u hsolve] at h
        exact absurd h (by simp)
      | some x =>
        rw [testNeverPassesRemesSecond, hsolve, Bool.and_eq_true] at htnp
        obtain ⟨hneq, htnp'⟩ := htnp
        have htest : ¬ (|x.getLastD 0| < scale * err) := by
          simpa using hneq
        rw [remezLoopRemesSecond_succ_some scale grid f num d fuel k err u x hsolve,
          if_neg htest] at h
        exact ih (k + 1) _ _ htnp' p e i h

/-- Witness for C7: on the constant function the level error is always `0`,
the strict test `0 < scale * 0` never passes, and both loops fail instead of
returning. -/
theorem c7_no_partial_result_witness :
    testNeverPassesFirst scaleFirst [0, 1] [1, 1] 0 2 0 [0, 1] = true ∧
      remezLoopFirst scaleFirst [0, 1] [1, 1] 0 2 0 0 [0, 1] ≠
        .success [1] 0 2 := by
  have htnp : testNeverPassesFirst scaleFirst [0, 1] [1, 1] 0 2 0 [0, 1] = true := by
    norm_num [testNeverPassesFirst, remezStepSolve, buildSystem, gaussSolve,
      findPivot, elimRow, dotQ, powList, residualGrid, polyval, exchangeSingle,
      interiorUpdate, matchSign, argmaxList, argmaxAux, List.range_succ,
      scaleFirst]
  exact ⟨htnp,
    c7_no_partial_result.1 scaleFirst [0, 1] [1, 1] 0 2 0 0 [0, 1] htnp [1] 0 2⟩

/-! ## C8: shape of a normal return -/

lemma linspace_length (start stop : ℚ) (num : ℕ) :
    (linspace start stop num).length = num := by
  rw [linspace, List.length_map, List.length_range]

lemma remezPolyFirst_def (fq : ℚ → ℚ) (start stop : ℚ) (num d maxIter : ℕ)
    (u0 : List ℕ) :
    remezPolyFirst fq start stop num d maxIter u0 =
      remezLoopFirst scaleFirst (linspace start stop num)
        ((linspace start stop num).map fq) d maxIter 0 0 u0 := rfl

lemma remezPolyRemesFirst_def (fq : ℚ → ℚ) (start stop : ℚ) (num d maxIter : ℕ)
    (u0 : List ℕ) :
    remezPolyRemesFirst fq start stop num d maxIter u0 =
      remezLoopFirst scaleRemesFirst (linspace start stop num)
        ((linspace start stop num).map fq) d maxIter 0 0 u0 := rfl

lemma remezPolyMinmax_def (fq : ℚ → ℚ) (start stop : ℚ) (num d maxIter : ℕ)
    (u0 : List ℕ) :
    remezPolyMinmax fq start stop num d maxIter u0 =
      remezLoopMinmax scaleMinmax (linspace start stop num)
        ((linspace start stop num).map fq) d maxIter 0 0 u0 := rfl

lemma remezPolySecond_def (fq : ℚ → ℚ) (start stop : ℚ) (num d maxIter : ℕ)
    (u0 : List ℕ) :
    remezPolySecond fq start stop num d maxIter u0 =
      remezLoopSecond scaleFirst (linspace start stop num)
        ((linspace start stop num).map fq) num d maxIter 0 0 u0 := rfl

lemma remezPolyRemesSecond_def (fq : ℚ → ℚ) (start stop : ℚ) (num d maxIter : ℕ)
    (u0 : List ℕ) :
    remezPolyRemesSecond fq start stop num d maxIter u0 =
      remezLoopRemesSecond scaleRemesSecond (linspace start stop num)
        ((linspace start stop num).map fq) num d maxIter 0 0 u0 := rfl

lemma take_length_of_solve (grid f : List ℚ) (d : ℕ) (u' : List ℕ) (x : List ℚ)
    (hx : remezStepSolve grid f d u' = some x) :
    (x.take (d + 1)).length = d + 1 := by
  have hlen := (remezStepSolve_alternation grid f u' d x hx).1
  rw [List.length_take, hlen]
  omega

/-- C8: whenever `remez_poly` returns normally, the coefficient list has
exactly `degree+1` entries (in ascending-power order: the first `degree+1`
components of the solution of the ascending Vandermonde system, evaluated
throughout by `polyval`), the returned error is non-negative, and the
iteration count lies in `[1, max_iter]`. -/
theorem c8_return_contract :
    (∀ (fq : ℚ → ℚ) (start stop : ℚ) (num d maxIter : ℕ) (u0 : List ℕ)
      (p : List ℚ) (e : ℚ) (i : ℕ), d + 2 ≤ num →
      remezPolyFirst fq start stop num d maxIter u0 = .success p e i →
      p.length = d + 1 ∧ 0 ≤ e ∧ 1 ≤ i ∧ i ≤ maxIter) ∧
    (∀ (fq : ℚ → ℚ) (start stop : ℚ) (num d maxIter : ℕ) (u0 : List ℕ)
      (p : List ℚ) (e : ℚ) (i : ℕ), d + 2 ≤ num →
      remezPolyRemesSecond fq start stop num d maxIter u0 = .success p e i →
      p.length = d + 1 ∧ 0 ≤ e ∧ 1 ≤ i ∧ i ≤ maxIter) := by
  constructor
  · intro fq start stop num d maxIter u0 p e i hnum h
    rw [remezPolyFirst_def] at h
    obtain ⟨h1, h2, u', x, hx, hp, he⟩ :=
      remezLoopFirst_success_spec scaleFirst _ _ d maxIter 0 0 u0 p e i h
    refine ⟨?_, ?_, by omega, by omega⟩
    · rw [hp]
      exact take_length_of_solve _ _ d u' x hx
    · rw [he]
      exact abs_nonneg _
  · intro fq start stop num d maxIter u0 p e i hnum h
    rw [remezPolyRemesSecond_def] at h
    obtain ⟨h1, h2, u', x, hx, hp, he⟩ :=
      remezLoopRemesSecond_success_spec scaleRemesSecond _ _ num d maxIter 0 0
        u0 p e i h
    refine ⟨?_, ?_, by omega, by omega⟩
    · rw [hp]
      exact take_length_of_solve _ _ d u' x hx
    · rw [he]
      refine amaxQ_abs_nonneg _ ?_
      intro hres
      have hlen : (residualGrid (linspace start stop num)
          ((linspace start stop num).map fq) p).length = num := by
        rw [residualGrid_length, List.length_map, linspace_length]
        omega
      rw [hres] at hlen
      simp at hlen
      omega

lemma linspace_two : linspace 0 1 2 = [0, 1] := by
  norm_num [linspace, List.range_succ]

lemma map_double_two : (linspace 0 1 2).map (fun x => 2 * x) = [0, 2] := by
  rw [linspace_two]; norm_num

set_option maxHeartbeats 1000000 in
lemma first_run_double : remezPolyFirst (fun x => 2 * x) 0 1 2 0 10 [0, 1] =
    .success [1] 1 2 := by
  rw [remezPolyFirst_def, map_double_two, linspace_two]
  norm_num [remezLoopFirst, remezStepSolve, buildSystem, gaussSolve, findPivot,
    elimRow, dotQ, powList, residualGrid, polyval, exchangeSingle,
    interiorUpdate, matchSign, argmaxList, argmaxAux, List.range_succ,
    scaleFirst]

set_option maxHeartbeats 1000000 in
lemma remesSecond_run_double :
    remezPolyRemesSecond (fun x => 2 * x) 0 1 2 0 10 [0, 1] =
      .success [1] 1 2 := by
  rw [remezPolyRemesSecond_def, map_double_two, linspace_two]
  norm_num [remezLoopRemesSecond, remezStepSolve,
    buildSystem, gaussSolve, findPivot, elimRow, dotQ, powList, residualGrid,
    polyval, multiExchange, multiPoints, multiMain, exchangeSeg, probeAdjust,
    probeLeft, probeRight, sliceQ, argmaxList, argmaxAux, argminList,
    argminAux, matchSign, setLast, rollLeft, rollRight, amaxQ,
    List.range_succ, scaleRemesSecond]

/-- Witness for C8 at a concrete run of both algorithms. -/
theorem c8_return_contract_witness :
    remezPolyFirst (fun x => 2 * x) 0 1 2 0 10 [0, 1] = .success [1] 1 2 ∧
      remezPolyRemesSecond (fun x => 2 * x) 0 1 2 0 10 [0, 1] = .success [1] 1 2 ∧
      ([1] : List ℚ).length = 0 + 1 ∧ (0 : ℚ) ≤ 1 ∧ 1 ≤ 2 ∧ 2 ≤ 10 := by
  have h1 := (c8_return_contract.1 (fun x => 2 * x) 0 1 2 0 10 [0, 1]
    [1] 1 2 (by omega) first_run_double)
  have h2 := (c8_return_contract.2 (fun x => 2 * x) 0 1 2 0 10 [0, 1]
    [1] 1 2 (by omega) remesSecond_run_double)
  exact ⟨first_run_double, remesSecond_run_double, h1.1, h1.2.1, h1.2.2.1,
    h1.2.2.2⟩

/-! ## C10: no variant with a strict test can converge on the first iteration -/

/-- C10: in all four variants the saved level error starts at `0` and the
convergence comparison is strict, so the test cannot pass on the first
iteration and every normal return reports at least 2 iterations. -/
theorem c10_min_two_iterations :
    (∀ (fq : ℚ → ℚ) (start stop : ℚ) (num d maxIter : ℕ) (u0 : List ℕ)
      (p : List ℚ) (e : ℚ) (i : ℕ),
      remezPolyFirst fq start stop num d maxIter u0 = .success p e i → 2 ≤ i) ∧
    (∀ (fq : ℚ → ℚ) (start stop : ℚ) (num d maxIter : ℕ) (u0 : List ℕ)
      (p : List ℚ) (e : ℚ) (i : ℕ),
      remezPolyRemesFirst fq start stop num d maxIter u0 = .success p e i → 2 ≤ i) ∧
    (∀ (fq : ℚ → ℚ) (start stop : ℚ) (num d maxIter : ℕ) (u0 : List ℕ)
      (p : List ℚ) (e : ℚ) (i : ℕ),
      remezPolySecond fq start stop num d maxIter u0 = .success p e i → 2 ≤ i) ∧
    (∀ (fq : ℚ → ℚ) (start stop : ℚ) (num d maxIter : ℕ) (u0 : List ℕ)
      (p : List ℚ) (e : ℚ) (i : ℕ),
      remezPolyRemesSecond fq start stop num d maxIter u0 = .success p e i → 2 ≤ i) := by
  have habs : ∀ (scale : ℚ) (x : List ℚ), ¬ (|x.getLastD 0| < scale * 0) := by
    intro scale x
    rw [mul_zero]
    exact not_lt.mpr (abs_nonneg _)
  refine ⟨?_, ?_, ?_, ?_⟩
  · intro fq start stop num d maxIter u0 p e i h
    rw [remezPolyFirst_def] at h
    cases maxIter with
    | zero => rw [remezLoopFirst] at h; exact absurd h (by simp)
    | succ m =>
      cases hsolve : remezStepSolve (linspace start stop num)
          ((linspace start stop num).map fq) d u0 with
      | none =>
        rw [remezLoopFirst_succ_none _ _ _ d m 0 0 u0 hsolve] at h
        exact absurd h (by simp)
      | some x =>
        rw [remezLoopFirst_succ_some _ _ _ d m 0 0 u0 x hsolve,
          if_neg (habs scaleFirst x)] at h
        obtain ⟨h1, _, _⟩ := remezLoopFirst_success_spec _ _ _ d m 1 _ _ p e i h
        omega
  · intro fq start stop num d maxIter u0 p e i h
    rw [remezPolyRemesFirst_def] at h
    cases maxIter with
    | zero => rw [remezLoopFirst] at h; exact absurd h (by simp)
    | succ m =>
      cases hsolve : remezStepSolve (linspace start stop num)
          ((linspace start stop num).map fq) d u0 with
      | none =>
        rw [remezLoopFirst_succ_none _ _ _ d m 0 0 u0 hsolve] at h
        exact absurd h (by simp)
      | some x =>
        rw [remezLoopFirst_succ_some _ _ _ d m 0 0 u0 x hsolve,
          if_neg (habs scaleRemesFirst x)] at h
        obtain ⟨h1, _, _⟩ := remezLoopFirst_success_spec _ _ _ d m 1 _ _ p e i h
        omega
  · intro fq start stop num d maxIter u0 p e i h
    rw [remezPolySecond_def] at h
    cases maxIter with
    | zero => rw [remezLoopSecond] at h; exact absurd h (by simp)
    | succ m =>
      cases hsolve : remezStepSolve (linspace start stop num)
          ((linspace start stop num).map fq) d u0 with
      | none =>
        rw [remezLoopSecond_succ_none _ _ _ num d m 0 0 u0 hsolve] at h
        exact absurd h (by simp)
      | some x =>
        rw [remezLoopSecond_succ_some _ _ _ num d m 0 0 u0 x hsolve,
          if_neg (habs scaleFirst x)] at h
        obtain ⟨h1, _, _⟩ := remezLoopSecond_success_spec _ _ _ num d m 1 _ _ p e i h
        omega
  · intro fq start stop num d maxIter u0 p e i h
    rw [remezPolyRemesSecond_def] at h
    cases maxIter with
    | zero => rw [remezLoopRemesSecond] at h; exact absurd h (by simp)
    | succ m =>
      cases hsolve : remezStepSolve (linspace start stop num)
          ((linspace start stop num).map fq) d u0 with
      | none =>
        rw [remezLoopRemesSecond_succ_none _ _ _ num d m 0 0 u0 hsolve] at h
        exact absurd h (by simp)
      | some x =>
        rw [remezLoopRemesSecond_succ_some _ _ _ num d m 0 0 u0 x hsolve,
          if_neg (habs scaleRemesSecond x)] at h
        obtain ⟨h1, _, _⟩ :=
          remezLoopRemesSecond_success_spec _ _ _ num d m 1 _ _ p e i h
        omega

/-- Witness for C10 at a concrete convergent run. -/
theorem c10_min_two_iterations_witness :
    remezPolyFirst (fun x => 2 * x) 0 1 2 0 10 [0, 1] = .success [1] 1 2 ∧
      2 ≤ 2 :=
  ⟨first_run_double,
    c10_min_two_iterations.1 (fun x => 2 * x) 0 1 2 0 10 [0, 1] [1] 1 2
      first_run_double⟩

/-! ## C1: the convergence judgment is strict, not "not strictly greater" -/

lemma linspace_three : linspace 0 1 3 = [0, 1/2, 1] := by
  norm_num [linspace, List.range_succ]

lemma map_const_three : (linspace 0 1 3).map (fun _ => (1 : ℚ)) = [1, 1, 1] := by
  rw [linspace_three]
  norm_num

set_option maxHeartbeats 1000000 in
/-- Counterexample to C1: on the constant function `1` every iteration's
level error is `0`, which is never *strictly greater* than the scaled
previous magnitude (`0`), so by the claim the run should converge (at the
second iteration at the latest); the code's strict `<` comparison never
passes, and the run ends in the non-convergence failure instead. -/
theorem c1_counterexample :
    remezStepSolve (linspace 0 1 3) ((linspace 0 1 3).map (fun _ => 1)) 0 [0, 2] =
        some [1, 0] ∧
      ¬ ((0 : ℚ) > scaleFirst * 0) ∧
      remezPolyFirst (fun _ => 1) 0 1 3 0 2 [0, 2] = RemezResult.nonConvergence := by
  refine ⟨?_, by simp, ?_⟩
  · rw [linspace_three]
    norm_num [remezStepSolve, buildSystem, gaussSolve, findPivot, elimRow,
      dotQ, powList, List.range_succ]
  · rw [remezPolyFirst_def, map_const_three, linspace_three]
    norm_num [remezLoopFirst, remezStepSolve, buildSystem, gaussSolve,
      findPivot, elimRow, dotQ, powList, residualGrid, polyval,
      exchangeSingle, interiorUpdate, matchSign, argmaxList, argmaxAux,
      List.range_succ, scaleFirst]

/-- C1 amended: an iteration of `first_algorithm.remez_poly` (equally
`remes_first_algorithm.remez_poly`) returns the current coefficients, level
error and 1-based count exactly when the new level-error magnitude is
*strictly less* than the previous magnitude scaled by the tolerance factor
(continuing on equality), while `minmax.remez_poly1` returns exactly when it
is not strictly greater (`<=`). -/
theorem c1_amended_convergence_test :
    ∀ (scale : ℚ) (grid f : List ℚ) (d fuel k : ℕ) (err : ℚ) (u : List ℕ)
      (x : List ℚ), remezStepSolve grid f d u = some x →
      ((remezLoopFirst scale grid f d (fuel + 1) k err u =
          .success (x.take (d + 1)) |x.getLastD 0| (k + 1) ↔
        |x.getLastD 0| < scale * err) ∧
      (remezLoopMinmax scale grid f d (fuel + 1) k err u =
          .success (x.take (d + 1)) |x.getLastD 0| (k + 1) ↔
        |x.getLastD 0| ≤ scale * err)) := by
  intro scale grid f d fuel k err u x hx
  constructor
  · rw [remezLoopFirst_succ_some scale grid f d fuel k err u x hx]
    constructor
    · intro h
      by_contra htest
      rw [if_neg htest] at h
      obtain ⟨h1, _, _⟩ :=
        remezLoopFirst_success_spec scale grid f d fuel (k + 1) _ _ _ _ _ h
      omega
    · intro htest
      rw [if_pos htest]
  · rw [remezLoopMinmax_succ_some scale grid f d fuel k err u x hx]
    constructor
    · intro h
      by_contra htest
      rw [if_neg htest] at h
      obtain ⟨h1, _, _⟩ :=
        remezLoopMinmax_success_spec scale grid f d fuel (k + 1) _ _ _ _ _ h
      omega
    · intro htest
      rw [if_pos htest]

/-- Witness for the amended C1 at a concrete iteration state. -/
theorem c1_amended_convergence_test_witness :
    remezStepSolve [0, 1] [0, 2] 0 [0, 1] = some [1, -1] ∧
      (remezLoopFirst scaleFirst [0, 1] [0, 2] 0 1 0 1 [0, 1] =
          .success [1] 1 1 ↔ (1 : ℚ) < scaleFirst * 1) := by
  have hs : remezStepSolve [0, 1] [0, 2] 0 [0, 1] = some [1, -1] := by
    norm_num [remezStepSolve, buildSystem, gaussSolve, findPivot, elimRow,
      dotQ, powList, List.range_succ]
  have h := (c1_amended_convergence_test scaleFirst [0, 1] [0, 2] 0 0 0 1
    [0, 1] [1, -1] hs).1
  refine ⟨hs, ?_⟩
  have e2 : |([1, -1] : List ℚ).getLastD 0| = 1 := by norm_num
  rw [e2] at h
  exact h

/-! ## C9: second_algorithm falls back to single exchange on zero level error -/

/-- C9: in `second_algorithm.remez_poly` a non-converged iteration continues
with the single-point (first-algorithm) exchange at the global extreme
residual exactly when the solved level-error magnitude is `0`; the
multi-point exchange is used exactly when it is nonzero. -/
theorem c9_zero_level_error_branch :
    ∀ (scale : ℚ) (grid f : List ℚ) (num d fuel k : ℕ) (err : ℚ) (u : List ℕ)
      (x : List ℚ), remezStepSolve grid f d u = some x →
      ¬ (|x.getLastD 0| < scale * err) →
      (|x.getLastD 0| = 0 →
        remezLoopSecond scale grid f num d (fuel + 1) k err u =
          remezLoopSecond scale grid f num d fuel (k + 1) |x.getLastD 0|
            (exchangeSingle (residualGrid grid f (x.take (d + 1))) u
              (argmaxList ((residualGrid grid f (x.take (d + 1))).map (fun v => |v|))))) ∧
      (|x.getLastD 0| ≠ 0 →
        remezLoopSecond scale grid f num d (fuel + 1) k err u =
          remezLoopSecond scale grid f num d fuel (k + 1) |x.getLastD 0|
            (multiExchange (residualGrid grid f (x.take (d + 1))) num u)) := by
  intro scale grid f num d fuel k err u x hx htest
  rw [remezLoopSecond_succ_some scale grid f num d fuel k err u x hx,
    if_neg htest]
  constructor
  · intro h0
    rw [if_pos h0]
  · intro h0
    rw [if_neg h0]

/-- Witness for C9 at a concrete zero-level-error state. -/
theorem c9_zero_level_error_branch_witness :
    remezStepSolve [0, 1] [1, 1] 0 [0, 1] = some [1, 0] ∧
      remezLoopSecond scaleFirst [0, 1] [1, 1] 2 0 1 0 0 [0, 1] =
        remezLoopSecond scaleFirst [0, 1] [1, 1] 2 0 0 1
          |([1, 0] : List ℚ).getLastD 0|
          (exchangeSingle (residualGrid [0, 1] [1, 1] (([1, 0] : List ℚ).take 1))
            [0, 1]
            (argmaxList ((residualGrid [0, 1] [1, 1]
              (([1, 0] : List ℚ).take 1)).map (fun v => |v|)))) := by
  have hs : remezStepSolve [0, 1] [1, 1] 0 [0, 1] = some [1, 0] := by
    norm_num [remezStepSolve, buildSystem, gaussSolve, findPivot, elimRow,
      dotQ, powList, List.range_succ]
  refine ⟨hs, ?_⟩
  exact (c9_zero_level_error_branch scaleFirst [0, 1] [1, 1] 2 0 0 0 0 [0, 1]
    [1, 0] hs (by norm_num)).1 (by norm_num)

/-! ## C6: there is no fail-fast parameter validation -/

lemma linspace_desc : linspace 1 0 2 = [1, 0] := by
  norm_num [linspace, List.range_succ]

lemma map_id_desc : (linspace 1 0 2).map (fun x => x) = [1, 0] := by
  rw [linspace_desc]
  norm_num

set_option maxHeartbeats 1000000 in
/-- Counterexample to C6: with the non-increasing interval `start = 1 >
stop = 0` (an invalid parameter per the spec) `remez_poly` does not fail at
all — it builds the descending grid and returns normally. -/
theorem c6_counterexample :
    (0 : ℚ) < 1 ∧
      remezPolyFirst (fun x => x) 1 0 2 0 5 [0, 1] =
        .success [1/2] (1/2) 2 := by
  refine ⟨by norm_num, ?_⟩
  rw [remezPolyFirst_def, map_id_desc, linspace_desc]
  norm_num [remezLoopFirst, remezStepSolve, buildSystem, gaussSolve, findPivot,
    elimRow, dotQ, powList, residualGrid, polyval, exchangeSingle,
    interiorUpdate, matchSign, argmaxList, argmaxAux, List.range_succ,
    scaleFirst]
  rw [show |(1 : ℚ) / 2| = 1 / 2 from abs_of_nonneg (by norm_num)]
  norm_num

/-- C6 amended: the code performs no precondition validation.  A non-positive
iteration cap surfaces as the generic non-convergence failure (raised after
the grid is built and the loop body is skipped), and other invalid
parameters may even return normally (see the counterexample). -/
theorem c6_no_fail_fast :
    ∀ (fq : ℚ → ℚ) (start stop : ℚ) (num d : ℕ) (u0 : List ℕ),
      remezPolyFirst fq start stop num d 0 u0 = RemezResult.nonConvergence ∧
        remezPolyRemesSecond fq start stop num d 0 u0 =
          RemezResult.nonConvergence := by
  intro fq start stop num d u0
  exact ⟨rfl, rfl⟩

/-! ## C3: the two second-algorithm files report different errors -/

/-- C3 amended: at convergence `remes_second_algorithm.remez_poly` returns
the maximum absolute residual over the whole grid, while
`second_algorithm.remez_poly` returns the level-error magnitude `|x[-1]|` of
the converged solve (which can be smaller than the grid maximum). -/
theorem c3_amended_returned_error :
    (∀ (scale : ℚ) (grid f : List ℚ) (num d fuel k : ℕ) (err : ℚ)
      (u : List ℕ) (p : List ℚ) (e : ℚ) (i : ℕ),
      remezLoopRemesSecond scale grid f num d fuel k err u = .success p e i →
      e = amaxQ ((residualGrid grid f p).map (fun v => |v|))) ∧
    (∀ (scale : ℚ) (grid f : List ℚ) (num d fuel k : ℕ) (err : ℚ)
      (u : List ℕ) (p : List ℚ) (e : ℚ) (i : ℕ),
      remezLoopSecond scale grid f num d fuel k err u = .success p e i →
      ∃ u' x, remezStepSolve grid f d u' = some x ∧ p = x.take (d + 1) ∧
        e = |x.getLastD 0|) := by
  constructor
  · intro scale grid f num d fuel k err u p e i h
    obtain ⟨_, _, _, x, _, _, he⟩ :=
      remezLoopRemesSecond_success_spec scale grid f num d fuel k err u p e i h
    exact he
  · intro scale grid f num d fuel k err u p e i h
    obtain ⟨_, _, h3⟩ :=
      remezLoopSecond_success_spec scale grid f num d fuel k err u p e i h
    exact h3

/-- Witness for the amended C3 at a concrete convergent run. -/
theorem c3_amended_returned_error_witness :
    remezLoopRemesSecond scaleRemesSecond (linspace 0 1 2)
        ((linspace 0 1 2).map (fun x => 2 * x)) 2 0 10 0 0 [0, 1] =
      .success [1] 1 2 ∧
      (1 : ℚ) = amaxQ ((residualGrid (linspace 0 1 2)
        ((linspace 0 1 2).map (fun x => 2 * x)) [1]).map (fun v => |v|)) := by
  have hrun : remezLoopRemesSecond scaleRemesSecond (linspace 0 1 2)
      ((linspace 0 1 2).map (fun x => 2 * x)) 2 0 10 0 0 [0, 1] =
        .success [1] 1 2 := by
    rw [← remezPolyRemesSecond_def]
    exact remesSecond_run_double
  exact ⟨hrun, c3_amended_returned_error.1 scaleRemesSecond _ _ 2 0 10 0 0
    [0, 1] [1] 1 2 hrun⟩

/-! ## C5: the minimal grid converges in exactly 2 iterations, not 1 -/

lemma getD_eq_getQ : ∀ (l : List ℚ) (i : ℕ) (h : i < l.length),
    l.getD i 0 = l.get ⟨i, h⟩ := by
  intro l
  induction l with
  | nil => intro i h; simp at h
  | cons a rest ih =>
    intro i h
    cases i with
    | zero => rfl
    | succ i => exact ih i (by simpa using h)

lemma range_getD (n i : ℕ) (h : i < n) : (List.range n).getD i 0 = i := by
  rw [getD_eq_get _ i (by simpa using h)]
  simp

/-- On the minimal grid the residual at every grid point is `(-1)^i` times
the signed level error of the solve. -/
lemma fullgrid_residual (grid f : List ℚ) (d : ℕ) (x : List ℚ)
    (hg : grid.length = d + 2) (hf : f.length = d + 2)
    (hx : remezStepSolve grid f d (List.range (d + 2)) = some x) :
    ∀ i, i < d + 2 →
      (residualGrid grid f (x.take (d + 1))).getD i 0 =
        (-1 : ℚ) ^ i * x.getLastD 0 := by
  intro i hi
  have halt := (remezStepSolve_alternation grid f (List.range (d + 2)) d x hx).2 i hi
  rw [range_getD _ i hi] at halt
  rw [residualGrid_getD f grid _ i (by omega) (by omega)]
  exact halt

lemma fullgrid_argmax_zero (grid f : List ℚ) (d : ℕ) (x : List ℚ)
    (hg : grid.length = d + 2) (hf : f.length = d + 2)
    (hx : remezStepSolve grid f d (List.range (d + 2)) = some x) :
    argmaxList ((residualGrid grid f (x.take (d + 1))).map (fun v => |v|)) = 0 := by
  refine argmaxList_const _ |x.getLastD 0| ?_
  intro y hy
  obtain ⟨v, hv, rfl⟩ := List.mem_map.mp hy
  obtain ⟨⟨i, hilen⟩, rfl⟩ := List.mem_iff_get.mp hv
  have hrlen : (residualGrid grid f (x.take (d + 1))).length = d + 2 := by
    rw [residualGrid_length, hf, hg]
    omega
  have hi2 : i < d + 2 := by omega
  rw [← getD_eq_getQ _ i hilen, fullgrid_residual grid f d x hg hf hx i hi2]
  rw [abs_mul, abs_pow, abs_neg, abs_one, one_pow, one_mul]

/-- The single-point exchange at position `0` on a trial set starting
`0 :: 1 :: …` is the identity (the first interval is hit and the sign of the
residual trivially matches itself). -/
lemma exchangeSingle_zero_fixed (r : List ℚ) (rest : List ℕ) :
    exchangeSingle r (0 :: 1 :: rest) 0 = 0 :: 1 :: rest := by
  rw [exchangeSingle]
  simp only [List.headD_cons]
  rw [if_neg (lt_irrefl 0), if_neg (Nat.not_lt_zero _), interiorUpdate,
    if_pos ⟨le_refl 0, Nat.zero_le 1⟩, if_pos (matchSign_self _)]

lemma range_two_cons (d : ℕ) :
    ∃ rest, List.range (d + 2) = 0 :: 1 :: rest := by
  refine ⟨((List.range d).map Nat.succ).map Nat.succ, ?_⟩
  rw [List.range_succ_eq_map, List.range_succ_eq_map]
  simp

/-- C5 amended: with `num = degree+2` and the trial set equal to the entire
grid, provided the solve succeeds with nonzero level error and
`max_iter ≥ 2`, `remez_poly` (both `first_algorithm.py` and `minmax.py`)
converges in exactly 2 iterations: iteration 1 cannot pass the test (the
saved error is 0), its exchange leaves the full-grid trial set unchanged,
and iteration 2 reproduces the same level error, which passes the test. -/
theorem c5_minimal_grid (fq : ℚ → ℚ) (start stop : ℚ) (d maxIter : ℕ)
    (x : List ℚ) (hmi : 2 ≤ maxIter)
    (hx : remezStepSolve (linspace start stop (d + 2))
      ((linspace start stop (d + 2)).map fq) d (List.range (d + 2)) = some x)
    (hE : x.getLastD 0 ≠ 0) :
    remezPolyFirst fq start stop (d + 2) d maxIter (List.range (d + 2)) =
        .success (x.take (d + 1)) |x.getLastD 0| 2 ∧
      remezPolyMinmax fq start stop (d + 2) d maxIter (List.range (d + 2)) =
        .success (x.take (d + 1)) |x.getLastD 0| 2 := by
  have habs : 0 < |x.getLastD 0| := abs_pos.mpr hE
  have hg : (linspace start stop (d + 2)).length = d + 2 :=
    linspace_length start stop (d + 2)
  have hf : ((linspace start stop (d + 2)).map fq).length = d + 2 := by
    rw [List.length_map, hg]
  obtain ⟨m, rfl⟩ : ∃ m, maxIter = m + 2 := ⟨maxIter - 2, by omega⟩
  obtain ⟨rest, hrg⟩ := range_two_cons d
  have hfix : exchangeSingle
      (residualGrid (linspace start stop (d + 2))
        ((linspace start stop (d + 2)).map fq) (x.take (d + 1)))
      (List.range (d + 2))
      (argmaxList ((residualGrid (linspace start stop (d + 2))
        ((linspace start stop (d + 2)).map fq) (x.take (d + 1))).map
          (fun v => |v|))) = List.range (d + 2) := by
    rw [fullgrid_argmax_zero _ _ d x hg hf hx, hrg]
    exact exchangeSingle_zero_fixed _ rest
  constructor
  · rw [remezPolyFirst_def,
      remezLoopFirst_succ_some scaleFirst _ _ d (m + 1) 0 0 _ x hx,
      if_neg (by rw [mul_zero]; exact not_lt.mpr (abs_nonneg _)), hfix,
      remezLoopFirst_succ_some scaleFirst _ _ d m 1 |x.getLastD 0| _ x hx,
      if_pos ?_]
    calc |x.getLastD 0| = 1 * |x.getLastD 0| := (one_mul _).symm
      _ < scaleFirst * |x.getLastD 0| := by
        refine mul_lt_mul_of_pos_right ?_ habs
        norm_num [scaleFirst]
  · rw [remezPolyMinmax_def,
      remezLoopMinmax_succ_some scaleMinmax _ _ d (m + 1) 0 0 _ x hx,
      if_neg (by rw [mul_zero]; exact not_le.mpr habs), hfix,
      remezLoopMinmax_succ_some scaleMinmax _ _ d m 1 |x.getLastD 0| _ x hx,
      if_pos ?_]
    refine le_mul_of_one_le_left (abs_nonneg _) ?_
    norm_num [scaleMinmax]

/-- Witness for the amended C5 on the minimal grid of the doubling
function. -/
theorem c5_minimal_grid_witness :
    remezStepSolve (linspace 0 1 2) ((linspace 0 1 2).map (fun x => 2 * x)) 0
        (List.range 2) = some [1, -1] ∧
      remezPolyFirst (fun x => 2 * x) 0 1 2 0 2 (List.range 2) =
        .success [1] 1 2 := by
  have hs : remezStepSolve (linspace 0 1 2)
      ((linspace 0 1 2).map (fun x => 2 * x)) 0 (List.range 2) = some [1, -1] := by
    rw [map_double_two, linspace_two]
    norm_num [remezStepSolve, buildSystem, gaussSolve, findPivot, elimRow,
      dotQ, powList, List.range_succ]
  have h := (c5_minimal_grid (fun x => 2 * x) 0 1 0 2 [1, -1] (le_refl 2) hs
    (by norm_num)).1
  have e1 : ([1, -1] : List ℚ).take (0 + 1) = [1] := rfl
  have e2 : |([1, -1] : List ℚ).getLastD 0| = 1 := by norm_num
  rw [e1, e2] at h
  exact ⟨hs, h⟩

/-- Counterexample to C5: the minimal-grid run of `remez_poly` on the
doubling function (grid of `degree+2 = 2` points, trial set = whole grid)
returns normally with iteration count 2, not 1. -/
theorem c5_counterexample :
    remezPolyFirst (fun x => 2 * x) 0 1 2 0 10 [0, 1] = .success [1] 1 2 ∧
      resultIters (remezPolyFirst (fun x => 2 * x) 0 1 2 0 10 [0, 1]) ≠
        some 1 := by
  refine ⟨first_run_double, ?_⟩
  rw [first_run_double]
  simp [resultIters]

/-! ## C4: the interior search ranges of the multi-point exchange -/

/-- Index characterization of `multiMain`: each produced point is the
extremum of its own residual sign over the segment from one past
`max(previous update, previous trial point)` up to the next trial point
(the grid size for the last one). -/
lemma multiMain_getD (r : List ℚ) (num : ℕ) :
    ∀ (l : List ℕ) (pu pv : ℕ) (j : ℕ), j < l.length →
    (multiMain r num pu pv l).getD j 0 =
      exchangeSeg r
        (max ((pv :: multiMain r num pu pv l).getD j 0) ((pu :: l).getD j 0) + 1)
        (l.getD j 0)
        (if j = l.length - 1 then num else l.getD (j + 1) 0) := by
  intro l
  induction l with
  | nil => intro pu pv j hj; simp at hj
  | cons mi tail ih =>
    intro pu pv j hj
    cases tail with
    | nil =>
      obtain rfl : j = 0 := by simpa using hj
      rw [multiMain]
      simp
    | cons hi rest =>
      cases j with
      | zero =>
        rw [multiMain]
        have hne : ¬ ((0 : ℕ) = (mi :: hi :: rest).length - 1) := by
          simp only [List.length_cons]
          omega
        simp [hne]
      | succ j' =>
        have hj' : j' < (hi :: rest).length := by
          simpa using hj
        have h := ih mi (exchangeSeg r (max pv pu + 1) mi hi) j' hj'
        rw [multiMain]
        simp only [List.getD_cons_succ, List.length_cons] at h ⊢
        simp only [Nat.add_sub_cancel] at h ⊢
        simp only [Nat.add_right_cancel_iff]
        exact h

/-- C4 amended: in the multi-point replacement pass the leftmost trial point
searches `[0, trial 1)`, and every later point `i` searches from one past
`max(update (i-1), trial (i-1))` - the maximum of the previous point's
already-updated and old positions - up to (exclusive) `trial (i+1)`, the
rightmost up to the grid size `num`; each point is replaced by the extremum
of its own residual sign on that range. -/
theorem c4_amended_search_ranges (r : List ℚ) (num : ℕ) (u : List ℕ)
    (h2 : 2 ≤ u.length) (i : ℕ) (hi : i < u.length) :
    (multiPoints r num u).getD i 0 =
      if i = 0 then exchangeSeg r 0 (u.getD 0 0) (u.getD 1 0)
      else
        exchangeSeg r
          (max ((multiPoints r num u).getD (i - 1) 0) (u.getD (i - 1) 0) + 1)
          (u.getD i 0)
          (if i = u.length - 1 then num else u.getD (i + 1) 0) := by
  cases u with
  | nil => simp at h2
  | cons u0 tail =>
    cases tail with
    | nil => simp at h2
    | cons u1 rest =>
      cases i with
      | zero =>
        rw [multiPoints]
        simp
      | succ i' =>
        have hi' : i' < (u1 :: rest).length := by
          simpa using hi
        have h := multiMain_getD r num (u1 :: rest) u0 (exchangeSeg r 0 u0 u1) i' hi'
        rw [multiPoints, if_neg (Nat.succ_ne_zero i')]
        simp only [List.getD_cons_succ, List.length_cons, Nat.add_sub_cancel] at h ⊢
        simp only [Nat.add_right_cancel_iff]
        exact h

/-- Witness for the amended C4 at an interior point of a concrete pass. -/
theorem c4_amended_search_ranges_witness :
    (multiPoints [1, -100, 2, -1, 1] 5 [0, 3, 4]).getD 1 0 =
      if (1 : ℕ) = 0 then
        exchangeSeg [1, -100, 2, -1, 1] 0 (([0, 3, 4] : List ℕ).getD 0 0)
          (([0, 3, 4] : List ℕ).getD 1 0)
      else
        exchangeSeg [1, -100, 2, -1, 1]
          (max ((multiPoints [1, -100, 2, -1, 1] 5 [0, 3, 4]).getD (1 - 1) 0)
            (([0, 3, 4] : List ℕ).getD (1 - 1) 0) + 1)
          (([0, 3, 4] : List ℕ).getD 1 0)
          (if (1 : ℕ) = ([0, 3, 4] : List ℕ).length - 1 then 5
           else ([0, 3, 4] : List ℕ).getD (1 + 1) 0) :=
  c4_amended_search_ranges [1, -100, 2, -1, 1] 5 [0, 3, 4] (by decide) 1 (by decide)

/-- Counterexample to C4: on a residual that alternates at the trial points,
the pass the code performs (`multiPoints`) and the pass the specification
describes (`specMultiPoints`, interior ranges starting one past the previous
trial point) produce different updates - the spec's version is not even
sorted. -/
theorem c4_counterexample :
    (∀ i, i < 3 →
      ([1, -100, 2, -1, 1] : List ℚ).getD (([0, 3, 4] : List ℕ).getD i 0) 0 =
        1 * (-1) ^ i) ∧
    multiPoints [1, -100, 2, -1, 1] 5 [0, 3, 4] = [2, 3, 4] ∧
    specMultiPoints [1, -100, 2, -1, 1] 5 [0, 3, 4] = [2, 1, 4] ∧
    multiPoints [1, -100, 2, -1, 1] 5 [0, 3, 4] ≠
      specMultiPoints [1, -100, 2, -1, 1] 5 [0, 3, 4] := by
  refine ⟨?_, ?_, ?_, ?_⟩
  · intro i hi
    interval_cases i <;> norm_num
  · norm_num [multiPoints, multiMain, exchangeSeg, sliceQ, argmaxList,
      argmaxAux, argminList, argminAux]
  · norm_num [specMultiPoints, exchangeSeg, sliceQ, argmaxList,
      argmaxAux, argminList, argminAux, List.range_succ]
  · norm_num [multiPoints, multiMain, specMultiPoints, exchangeSeg, sliceQ,
      argmaxList, argmaxAux, argminList, argminAux, List.range_succ]

/-! ## C3: a run of the second algorithm whose returned error is below the
grid maximum -/

lemma linspace_five : linspace 0 1 5 = [0, 1 / 4, 1 / 2, 3 / 4, 1] := by
  norm_num [linspace, List.range_succ]

lemma c3fun_map : ([0, 1 / 4, 1 / 2, 3 / 4, 1] : List ℚ).map c3fun =
    [1, -5, 1 + 1 / 10 ^ 16, 1 / 2, 0] := by
  norm_num [c3fun]

lemma c3_solve1 :
    remezStepSolve [0, 1 / 4, 1 / 2, 3 / 4, 1] [1, -5, 1 + 1 / 10 ^ 16, 1 / 2, 0]
      0 [0, 4] = some [1 / 2, 1 / 2] := by
  norm_num [remezStepSolve, buildSystem, gaussSolve, findPivot, elimRow, dotQ,
    powList, List.range_succ]

lemma c3_resid1 :
    residualGrid [0, 1 / 4, 1 / 2, 3 / 4, 1] [1, -5, 1 + 1 / 10 ^ 16, 1 / 2, 0]
      [1 / 2] = [1 / 2, -11 / 2, 1 / 2 + 1 / 10 ^ 16, 0, -1 / 2] := by
  norm_num [residualGrid, polyval]

lemma c3_exch1 :
    multiExchange [1 / 2, -11 / 2, 1 / 2 + 1 / 10 ^ 16, 0, -1 / 2] 5 [0, 4] =
      [2, 4] := by
  norm_num [multiExchange, probeAdjust, probeLeft, probeRight, multiPoints,
    multiMain, exchangeSeg, sliceQ, argmaxList, argmaxAux, argminList,
    argminAux, matchSign, setLast, rollLeft, rollRight]

lemma c3_solve2 :
    remezStepSolve [0, 1 / 4, 1 / 2, 3 / 4, 1] [1, -5, 1 + 1 / 10 ^ 16, 1 / 2, 0]
      0 [2, 4] =
      some [(10 ^ 16 + 1) / (2 * 10 ^ 16), (10 ^ 16 + 1) / (2 * 10 ^ 16)] := by
  norm_num [remezStepSolve, buildSystem, gaussSolve, findPivot, elimRow, dotQ,
    powList, List.range_succ]

/-- The concrete run of `second_algorithm.remez_poly` behind the C3
counterexample: it converges on the second iteration and returns the level
error `(10^16+1)/(2*10^16)` of the converged solve. -/
lemma second_run_c3 :
    remezPolySecond c3fun 0 1 5 0 10 [0, 4] =
      .success [(10 ^ 16 + 1) / (2 * 10 ^ 16)] ((10 ^ 16 + 1) / (2 * 10 ^ 16))
        2 := by
  have hmap : (linspace 0 1 5).map c3fun = [1, -5, 1 + 1 / 10 ^ 16, 1 / 2, 0] := by
    rw [linspace_five]
    exact c3fun_map
  rw [remezPolySecond_def, hmap, linspace_five, show (10 : ℕ) = 9 + 1 from rfl,
    remezLoopSecond_succ_some scaleFirst [0, 1 / 4, 1 / 2, 3 / 4, 1]
      [1, -5, 1 + 1 / 10 ^ 16, 1 / 2, 0] 5 0 9 0 0 [0, 4] [1 / 2, 1 / 2] c3_solve1]
  have hgl1 : |([1 / 2, 1 / 2] : List ℚ).getLastD 0| = 1 / 2 := by
    rw [show ([1 / 2, 1 / 2] : List ℚ).getLastD 0 = 1 / 2 from rfl]
    exact abs_of_nonneg (by norm_num)
  rw [hgl1, if_neg (by norm_num [scaleFirst] : ¬ ((1 : ℚ) / 2 < scaleFirst * 0)),
    if_neg (by norm_num : ¬ ((1 : ℚ) / 2 = 0)),
    show ([1 / 2, 1 / 2] : List ℚ).take (0 + 1) = [1 / 2] from rfl,
    c3_resid1, c3_exch1, show (9 : ℕ) = 8 + 1 from rfl,
    remezLoopSecond_succ_some scaleFirst [0, 1 / 4, 1 / 2, 3 / 4, 1]
      [1, -5, 1 + 1 / 10 ^ 16, 1 / 2, 0] 5 0 8 (0 + 1) (1 / 2) [2, 4]
      [(10 ^ 16 + 1) / (2 * 10 ^ 16), (10 ^ 16 + 1) / (2 * 10 ^ 16)] c3_solve2]
  have hgl2 : |([(10 ^ 16 + 1) / (2 * 10 ^ 16),
      (10 ^ 16 + 1) / (2 * 10 ^ 16)] : List ℚ).getLastD 0| =
      (10 ^ 16 + 1) / (2 * 10 ^ 16) := by
    rw [show ([(10 ^ 16 + 1) / (2 * 10 ^ 16),
      (10 ^ 16 + 1) / (2 * 10 ^ 16)] : List ℚ).getLastD 0 =
        (10 ^ 16 + 1) / (2 * 10 ^ 16) from rfl]
    exact abs_of_nonneg (by norm_num)
  rw [hgl2, if_pos (by norm_num [scaleFirst] :
    ((10 ^ 16 + 1) / (2 * 10 ^ 16) : ℚ) < scaleFirst * (1 / 2))]
  norm_num

lemma c3_resid_final :
    residualGrid [0, 1 / 4, 1 / 2, 3 / 4, 1] [1, -5, 1 + 1 / 10 ^ 16, 1 / 2, 0]
      [(10 ^ 16 + 1) / (2 * 10 ^ 16)] =
      [(10 ^ 16 - 1) / (2 * 10 ^ 16), -(11 * 10 ^ 16 + 1) / (2 * 10 ^ 16),
        (10 ^ 16 + 1) / (2 * 10 ^ 16), -1 / (2 * 10 ^ 16),
        -(10 ^ 16 + 1) / (2 * 10 ^ 16)] := by
  norm_num [residualGrid, polyval]

lemma c3_absmap :
    (([(10 ^ 16 - 1) / (2 * 10 ^ 16), -(11 * 10 ^ 16 + 1) / (2 * 10 ^ 16),
        (10 ^ 16 + 1) / (2 * 10 ^ 16), -1 / (2 * 10 ^ 16),
        -(10 ^ 16 + 1) / (2 * 10 ^ 16)] : List ℚ).map (fun v => |v|)) =
      [(10 ^ 16 - 1) / (2 * 10 ^ 16), (11 * 10 ^ 16 + 1) / (2 * 10 ^ 16),
        (10 ^ 16 + 1) / (2 * 10 ^ 16), 1 / (2 * 10 ^ 16),
        (10 ^ 16 + 1) / (2 * 10 ^ 16)] := by
  have a1 : |((10 ^ 16 - 1) / (2 * 10 ^ 16) : ℚ)| =
      (10 ^ 16 - 1) / (2 * 10 ^ 16) := abs_of_nonneg (by norm_num)
  have a2 : |(-(11 * 10 ^ 16 + 1) / (2 * 10 ^ 16) : ℚ)| =
      (11 * 10 ^ 16 + 1) / (2 * 10 ^ 16) := by
    rw [abs_of_nonpos (by norm_num)]
    norm_num
  have a3 : |((10 ^ 16 + 1) / (2 * 10 ^ 16) : ℚ)| =
      (10 ^ 16 + 1) / (2 * 10 ^ 16) := abs_of_nonneg (by norm_num)
  have a4 : |(-1 / (2 * 10 ^ 16) : ℚ)| = 1 / (2 * 10 ^ 16) := by
    rw [abs_of_nonpos (by norm_num)]
    norm_num
  have a5 : |(-(10 ^ 16 + 1) / (2 * 10 ^ 16) : ℚ)| =
      (10 ^ 16 + 1) / (2 * 10 ^ 16) := by
    rw [abs_of_nonpos (by norm_num)]
    norm_num
  simp only [List.map_cons, List.map_nil, a1, a2, a3, a4, a5]

lemma c3_amax :
    amaxQ ([(10 ^ 16 - 1) / (2 * 10 ^ 16), (11 * 10 ^ 16 + 1) / (2 * 10 ^ 16),
        (10 ^ 16 + 1) / (2 * 10 ^ 16), 1 / (2 * 10 ^ 16),
        (10 ^ 16 + 1) / (2 * 10 ^ 16)] : List ℚ) =
      (11 * 10 ^ 16 + 1) / (2 * 10 ^ 16) := by
  norm_num [amaxQ, max_def]

/-- Counterexample to C3: a run of `second_algorithm.remez_poly` that
converges normally but returns the error `(10^16+1)/(2*10^16)`, while the
maximum absolute residual of the returned polynomial over the whole grid is
`(11*10^16+1)/(2*10^16)` - the returned error is not the grid maximum. -/
theorem c3_counterexample :
    remezPolySecond c3fun 0 1 5 0 10 [0, 4] =
        .success [(10 ^ 16 + 1) / (2 * 10 ^ 16)]
          ((10 ^ 16 + 1) / (2 * 10 ^ 16)) 2 ∧
      amaxQ ((residualGrid (linspace 0 1 5) ((linspace 0 1 5).map c3fun)
          [(10 ^ 16 + 1) / (2 * 10 ^ 16)]).map (fun v => |v|)) =
        (11 * 10 ^ 16 + 1) / (2 * 10 ^ 16) ∧
      ((10 ^ 16 + 1) / (2 * 10 ^ 16) : ℚ) ≠
        (11 * 10 ^ 16 + 1) / (2 * 10 ^ 16) := by
  have hmap : (linspace 0 1 5).map c3fun =
      [1, -5, 1 + 1 / 10 ^ 16, 1 / 2, 0] := by
    rw [linspace_five]
    exact c3fun_map
  refine ⟨second_run_c3, ?_, by norm_num⟩
  rw [hmap, linspace_five, c3_resid_final, c3_absmap, c3_amax]
